import Mathlib

/-!
Verification of the skeleton-cache and imports-graph subsystem of ACL-MCP.

This file gives a shallow embedding, in Lean, of the core of the repository:
the LRU memory cache and fingerprint-validating skeleton cache
(src/cartographer/cache.ts), the durable sql.js-backed store
(src/anchor/database.ts), and the mapper orchestration
(src/cartographer/index.ts): read-through lookup, write-back of skeleton
records and graph edges, refresh, debounced invalidation, and the
breadth-first related-files traversal.  Theorems about the embedded
definitions follow the definitions.

Modelling conventions:
* File paths and file contents are strings.  The filesystem is a partial map
  from path to content (`none` = missing / unreadable / not a regular file).
* The MD5 content digest is modelled as an injective, never-empty digest
  function on contents (`md5Hex`).  Timestamps (`Date.now()`) are naturals
  passed explicitly to each operation that reads the clock.
* A JS `Map` is modelled as an association list with unique keys kept in
  insertion order; `Map.set` on an existing key overwrites in place,
  otherwise appends.
* JSON serialization of a skeleton (`JSON.stringify` / `JSON.parse` round
  trip) is modelled as the identity: a stored record carries the skeleton
  value itself.
-/

set_option autoImplicit false

universe u

/-- JS `Map.set`: overwrite in place when the key is present, else append. -/
def mapSet {β : Type u} : List (String × β) → String → β → List (String × β)
  | [], k, v => [(k, v)]
  | (k2, v2) :: rest, k, v =>
    if k2 = k then (k, v) :: rest else (k2, v2) :: mapSet rest k v

/-- JS `Map.get`: the value stored at the key, if any. -/
def mapGet {β : Type u} : List (String × β) → String → Option β
  | [], _ => none
  | (k2, v) :: rest, k => if k2 = k then some v else mapGet rest k

/-- JS `Map.delete`: remove the entry stored at the key, keeping the order of
the remaining entries. -/
def mapDelete {β : Type u} : List (String × β) → String → List (String × β)
  | [], _ => []
  | (k2, v) :: rest, k =>
    if k2 = k then mapDelete rest k else (k2, v) :: mapDelete rest k

/-- Abstract filesystem: the content of the regular file at each absolute
path, or `none` when the path is missing, unreadable, or not a regular file.
This models the `statSync` and `readFileSync` calls in cache.ts and
cartographer/index.ts. -/
def FS : Type := String → Option String

/-- Model of the MD5 hex digest of raw file bytes (`createHash('md5')` in
cache.ts and cartographer/index.ts).  Modelled as an injective digest of the
content; real MD5 digests are 32 hex characters, hence never the empty
string, which the leading marker character preserves. -/
def md5Hex (content : String) : String := "#" ++ content

/-- Model of `SkeletonCache.computeFileHash` (cache.ts): MD5 of the file contents, or
`null` when the file is missing / unreadable / not a regular file. -/
def computeFileHash (fs : FS) (filePath : String) : Option String :=
  (fs filePath).map md5Hex

/-- Model of `CacheEntry<T>` from cache.ts. -/
structure CacheEntry (T : Type) where
  value : T
  hash : String
  accessedAt : Nat
deriving DecidableEq

/-- Model of `LRUCache<T>` from cache.ts: a JS `Map` from key to entry plus the fixed
capacity `maxSize`. -/
structure LRUCache (T : Type) where
  cache : List (String × CacheEntry T)
  maxSize : Nat
deriving DecidableEq

/-- Model of `LRUCache.get`: look the key up and, when present, update the recency
timestamp of the entry in place (the JS code mutates the stored entry and
returns it, so the returned entry carries the new timestamp). -/
def LRUCache.get {T : Type} (c : LRUCache T) (key : String) (now : Nat) :
    Option (CacheEntry T) × LRUCache T :=
  match mapGet c.cache key with
  | none => (none, c)
  | some e =>
    let e2 := { e with accessedAt := now }
    (some e2, { c with cache := mapSet c.cache key e2 })

/-- Model of `LRUCache.evictOldest`: remove `max 1 ⌊maxSize / 10⌋` entries with the
oldest recency timestamps.  The JS code sorts the entries by `accessedAt`
with the stable `Array.prototype.sort` and deletes the keys of the first
`entriesToRemove` sorted entries; `Math.floor(maxSize * 0.1)` is modelled as
`maxSize / 10` on naturals. -/
def LRUCache.evictOldest {T : Type} (c : LRUCache T) : LRUCache T :=
  let entriesToRemove := max 1 (c.maxSize / 10)
  let sorted := c.cache.mergeSort (fun a b => decide (a.2.accessedAt ≤ b.2.accessedAt))
  let victims := (sorted.take entriesToRemove).map Prod.fst
  { c with cache := c.cache.filter (fun p => ! victims.contains p.1) }

/-- Model of `LRUCache.set`: evict a batch first when already at capacity, then insert
the entry with the current timestamp. -/
def LRUCache.set {T : Type} (c : LRUCache T) (key : String) (value : T) (hash : String)
    (now : Nat) : LRUCache T :=
  let c1 := if c.maxSize ≤ c.cache.length then c.evictOldest else c
  { c1 with cache := mapSet c1.cache key { value := value, hash := hash, accessedAt := now } }

/-- Model of `LRUCache.delete`. -/
def LRUCache.delete {T : Type} (c : LRUCache T) (key : String) : LRUCache T :=
  { c with cache := mapDelete c.cache key }

/-- Model of `LRUCache.size`. -/
def LRUCache.size {T : Type} (c : LRUCache T) : Nat := c.cache.length

/-- Model of `SkeletonCache<T>` from cache.ts: the LRU memory cache, the map of
pending debounce timers (path to scheduled fire time, modelling the stored
`NodeJS.Timeout` handle by its deadline), and the debounce delay. -/
structure SkeletonCache (T : Type) where
  memoryCache : LRUCache T
  debounceTimers : List (String × Nat)
  debounceMs : Nat
deriving DecidableEq

/-- Model of `SkeletonCache.getIfValid`: fetch from the memory cache (touching
recency); when present, recompute the fingerprint of the file and compare it
with the stored one; on mismatch (including a missing fingerprint) delete the
entry and miss. -/
def SkeletonCache.getIfValid {T : Type} (sc : SkeletonCache T) (fs : FS)
    (filePath : String) (now : Nat) : Option T × SkeletonCache T :=
  match sc.memoryCache.get filePath now with
  | (none, mc) => (none, { sc with memoryCache := mc })
  | (some entry, mc) =>
    if computeFileHash fs filePath = some entry.hash then
      (some entry.value, { sc with memoryCache := mc })
    else
      (none, { sc with memoryCache := mc.delete filePath })

/-- Model of `SkeletonCache.set`: compute the fingerprint now; store when computable,
silently skip otherwise.  (The JS truthiness test `if (hash)` coincides with
`isSome` because real digests are never the empty string.) -/
def SkeletonCache.set {T : Type} (sc : SkeletonCache T) (fs : FS) (filePath : String)
    (skeleton : T) (now : Nat) : SkeletonCache T :=
  match computeFileHash fs filePath with
  | some hash => { sc with memoryCache := sc.memoryCache.set filePath skeleton hash now }
  | none => sc

/-- Model of `SkeletonCache.invalidateDebounced`, state part: cancel any existing
timer for the path and schedule a fresh one `debounceMs` after the call
(`setTimeout` plus `debounceTimers.set`).  The body of the timer is modelled
separately by `SkeletonCache.fireInvalidation`. -/
def SkeletonCache.invalidateDebounced {T : Type} (sc : SkeletonCache T) (filePath : String)
    (now : Nat) : SkeletonCache T :=
  { sc with debounceTimers := mapSet sc.debounceTimers filePath (now + sc.debounceMs) }

/-- Body of the debounce timer in `SkeletonCache.invalidateDebounced`: delete
the memory-cache entry and drop the timer record (the optional completion
callback is accounted for by the caller of this function). -/
def SkeletonCache.fireInvalidation {T : Type} (sc : SkeletonCache T) (filePath : String) :
    SkeletonCache T :=
  { sc with
    memoryCache := sc.memoryCache.delete filePath
    debounceTimers := mapDelete sc.debounceTimers filePath }

/-- Model of `SkeletonCache.invalidate`: immediate invalidation, cancelling any
pending debounce timer for the path. -/
def SkeletonCache.invalidate {T : Type} (sc : SkeletonCache T) (filePath : String) :
    SkeletonCache T :=
  { sc with
    memoryCache := sc.memoryCache.delete filePath
    debounceTimers := mapDelete sc.debounceTimers filePath }

/-- Execution state for a burst of debounced invalidations of one path: the
cache state together with the log of times at which the invalidation effect
(memory-cache removal plus completion callback) actually ran. -/
structure DebounceRun (T : Type) where
  sc : SkeletonCache T
  fired : List Nat
deriving DecidableEq

/-- Advance the timeline to moment `t`: if the pending timer for the path has
a deadline that has already been reached, it fires (running
`fireInvalidation` and logging the effect) before anything happening at `t`. -/
def DebounceRun.advanceTo {T : Type} (r : DebounceRun T) (p : String) (t : Nat) :
    DebounceRun T :=
  match mapGet r.sc.debounceTimers p with
  | some deadline =>
    if deadline ≤ t then { sc := r.sc.fireInvalidation p, fired := r.fired ++ [deadline] } else r
  | none => r

/-- Run a burst of `invalidateDebounced` calls for path `p` at the given
moments (in timeline order): before each call the timeline advances to the
moment of the call, then the call itself re-arms the timer. -/
def DebounceRun.runCalls {T : Type} (p : String) : DebounceRun T → List Nat → DebounceRun T
  | r, [] => r
  | r, t :: ts =>
    let r1 := r.advanceTo p t
    DebounceRun.runCalls p { r1 with sc := r1.sc.invalidateDebounced p t } ts

/-- After the burst, let the timeline run to quiescence: a still-pending
timer for `p` fires at its deadline. -/
def DebounceRun.finish {T : Type} (r : DebounceRun T) (p : String) : DebounceRun T :=
  match mapGet r.sc.debounceTimers p with
  | some deadline => { sc := r.sc.fireInvalidation p, fired := r.fired ++ [deadline] }
  | none => r

/-- Model of `ExportedSymbol` from parser.ts. -/
structure ExportedSymbol where
  name : String
  kind : String
  line : Nat
  isDefault : Bool
deriving DecidableEq

/-- Model of `ImportStatement` from parser.ts. -/
structure ImportStatement where
  source : String
  specifiers : List String
  isTypeOnly : Bool
  isDynamic : Bool
  line : Nat
deriving DecidableEq

/-- Model of `MethodSkeleton` from parser.ts. -/
structure MethodSkeleton where
  name : String
  line : Nat
  visibility : String
  isStatic : Bool
  isAsync : Bool
  parameters : List String
  returnType : Option String
deriving DecidableEq

/-- Model of `ClassSkeleton` from parser.ts (the optional parent-class field, named
`extends` in the source, is renamed because `extends` is a Lean keyword). -/
structure ClassSkeleton where
  name : String
  line : Nat
  methods : List MethodSkeleton
  properties : List String
  extendsParent : Option String
  implements : Option (List String)
deriving DecidableEq

/-- Model of `FunctionSkeleton` from parser.ts. -/
structure FunctionSkeleton where
  name : String
  line : Nat
  isAsync : Bool
  isExported : Bool
  parameters : List String
  returnType : Option String
deriving DecidableEq

/-- Model of `FileSkeleton` from parser.ts. -/
structure FileSkeleton where
  filePath : String
  language : String
  exports : List ExportedSymbol
  imports : List ImportStatement
  classes : List ClassSkeleton
  functions : List FunctionSkeleton
  parseErrors : List String
deriving DecidableEq

/-- Row of the `skeletons` table (database.ts `SkeletonRecord`).  The JSON
blob column carries the skeleton value itself (serialization is modelled as
the identity); the row id and the created/updated timestamps are not
observed by any claim and are omitted. -/
structure SkeletonRecord where
  file_path : String
  file_hash : String
  language : String
  skeleton_json : FileSkeleton
deriving DecidableEq

/-- Row of the `import_graph` table (database.ts `ImportEdgeRecord`); the row
id and created timestamp are not observed by any claim and are omitted.  The
triple is UNIQUE in the schema. -/
structure ImportEdgeRecord where
  source_path : String
  target_path : String
  import_type : String
deriving DecidableEq

/-- The two tables of the durable store that the claims observe (the
`sessions` and `context_artifacts` tables are opaque to the cartographer and
are not modelled). -/
structure DbContents where
  skeletons : List SkeletonRecord
  importGraph : List ImportEdgeRecord
deriving DecidableEq

/-- The sql.js-backed store: the live in-memory database plus the bytes last
serialized to disk by `AclDatabase.save` (`writeFileSync` of `db.export()`). -/
structure Store where
  mem : DbContents
  disk : DbContents
deriving DecidableEq

namespace AclDatabase

/-- Model of `AclDatabase.getSkeleton`: `SELECT * FROM skeletons WHERE file_path = ?`
read with `queryOne` — the first matching row, if any. -/
def getSkeletonRow (db : DbContents) (filePath : String) : Option SkeletonRecord :=
  db.skeletons.find? (fun r => r.file_path = filePath)

/-- Mutation of `AclDatabase.upsertSkeleton`: INSERT with
`ON CONFLICT(file_path) DO UPDATE` of hash, language and blob. -/
def upsertSkeletonDb (db : DbContents) (filePath fileHash language : String)
    (skeletonJson : FileSkeleton) : DbContents :=
  if db.skeletons.any (fun r => r.file_path = filePath) then
    { db with
      skeletons := db.skeletons.map (fun r =>
        if r.file_path = filePath then
          { r with file_hash := fileHash, language := language, skeleton_json := skeletonJson }
        else r) }
  else
    { db with
      skeletons := db.skeletons ++
        [{ file_path := filePath, file_hash := fileHash, language := language,
           skeleton_json := skeletonJson }] }

/-- Mutation of `AclDatabase.deleteSkeleton`: DELETE every row of `skeletons`
whose `file_path` matches. -/
def deleteSkeletonDb (db : DbContents) (filePath : String) : DbContents :=
  { db with skeletons := db.skeletons.filter (fun r => r.file_path ≠ filePath) }

/-- Mutation of `AclDatabase.addImportEdge`: `INSERT OR IGNORE` into
`import_graph`, whose UNIQUE(source_path, target_path, import_type)
constraint makes re-adding an existing triple a no-op. -/
def addImportEdgeDb (db : DbContents) (sourcePath targetPath importType : String) :
    DbContents :=
  let row : ImportEdgeRecord :=
    { source_path := sourcePath, target_path := targetPath, import_type := importType }
  if db.importGraph.contains row then db else { db with importGraph := db.importGraph ++ [row] }

/-- Mutation of `AclDatabase.clearImportsForFile`: DELETE every row of
`import_graph` whose `source_path` matches. -/
def clearImportsForFileDb (db : DbContents) (sourcePath : String) : DbContents :=
  { db with importGraph := db.importGraph.filter (fun r => r.source_path ≠ sourcePath) }

/-- Model of `AclDatabase.getImports`: all edges out of the source path. -/
def getImports (db : DbContents) (sourcePath : String) : List ImportEdgeRecord :=
  db.importGraph.filter (fun r => r.source_path = sourcePath)

/-- Model of `AclDatabase.getImporters`: all edges into the target path. -/
def getImporters (db : DbContents) (targetPath : String) : List ImportEdgeRecord :=
  db.importGraph.filter (fun r => r.target_path = targetPath)

/-- One SQL statement issued by the cartographer write-back (each constructor
names the `AclDatabase` method whose single SQL statement it is). -/
inductive DbStmt where
  | upsertSkeleton (filePath fileHash language : String) (skeletonJson : FileSkeleton)
  | deleteSkeleton (filePath : String)
  | clearImportsForFile (sourcePath : String)
  | addImportEdge (sourcePath targetPath importType : String)
deriving DecidableEq

/-- Effect of one statement on the in-memory database. -/
def applyStmt (st : DbStmt) (db : DbContents) : DbContents :=
  match st with
  | .upsertSkeleton p h l j => upsertSkeletonDb db p h l j
  | .deleteSkeleton p => deleteSkeletonDb db p
  | .clearImportsForFile p => clearImportsForFileDb db p
  | .addImportEdge s t k => addImportEdgeDb db s t k

/-- Model of `AclDatabase.run` (private): execute one mutating statement and then
`save()` — serialize the whole store to disk. -/
def runStmt (st : DbStmt) (s : Store) : Store :=
  let mem1 := applyStmt st s.mem
  { mem := mem1, disk := mem1 }

/-- Execute a list of statements the way the cartographer issues them: each
through `AclDatabase.run`, so each statement is committed and serialized
individually.  `fails i = true` injects a failure of the i-th statement
(e.g. the underlying `db.run` or the `writeFileSync` in `save` throwing):
the exception propagates to the caller (`Except.error`), carrying the store
state at that moment — nothing rolls the earlier statements back. -/
def runStmts (fails : Nat → Bool) : Nat → List DbStmt → Store → Except Store Store
  | _, [], s => .ok s
  | i, st :: rest, s =>
    if fails i then .error s
    else runStmts fails (i + 1) rest (runStmt st s)

/-- Statement execution inside `AclDatabase.transaction`: raw `db.run` calls
between BEGIN and COMMIT mutate only the in-memory database; a failure of
any statement aborts the batch. -/
def transactionStmts (fails : Nat → Bool) : Nat → List DbStmt → DbContents →
    Except Unit DbContents
  | _, [], db => .ok db
  | i, st :: rest, db =>
    if fails i then .error ()
    else transactionStmts fails (i + 1) rest (applyStmt st db)

/-- Model of `AclDatabase.transaction` applied to a batch of statements: on success
COMMIT and a single `save()`; on failure ROLLBACK (sql.js restores the
in-memory database to its state at BEGIN), no `save()`, and the error is
rethrown to the caller with the store unchanged. -/
def transactionRun (fails : Nat → Bool) (stmts : List DbStmt) (s : Store) :
    Except Store Store :=
  match transactionStmts fails 0 stmts s.mem with
  | .ok mem1 => .ok { mem := mem1, disk := mem1 }
  | .error _ => .error s

end AclDatabase

/-- The Node path primitives used by the cartographer (`dirname`, `resolve`,
`join` from the path module).  They are external collaborators; the embedded
functions are parameterized over them. -/
structure PathOps where
  dirname : String → String
  resolvePath : String → String → String
  joinPath : String → String → String

/-- Behaviour of the JS `String.prototype.startsWith` test, modelled on the
character list of the string (the Lean primitive of the same name is not
evaluable by kernel reduction). -/
def strStartsWith (s pre : String) : Bool := pre.data.isPrefixOf s.data

/-- Behaviour of `existsSync` on the abstract filesystem. -/
def existsSyncB (fs : FS) (p : String) : Bool := (fs p).isSome

/-- The extension candidate list of `Cartographer.resolveImportPath`. -/
def extensionsList : List String := [".ts", ".tsx", ".js", ".jsx", ".py", ".go", ".rs"]

/-- The extension loop of `Cartographer.resolveImportPath`: for each
candidate extension try `exactPath + ext`, then `exactPath/index{ext}`. -/
def tryExtensions (po : PathOps) (fs : FS) (exactPath : String) :
    List String → Option String
  | [] => none
  | ext :: rest =>
    let withExt := exactPath ++ ext
    if existsSyncB fs withExt then some withExt
    else
      let indexPath := po.joinPath exactPath ("index" ++ ext)
      if existsSyncB fs indexPath then some indexPath
      else tryExtensions po fs exactPath rest

/-- Model of `Cartographer.resolveImportPath`: resolve the source specifier of one
statement of the `imports` list against the directory of the source file;
try the exact path first, then the extension candidates. -/
def resolveImportPath (po : PathOps) (fs : FS) (fromPath importSource : String) :
    Option String :=
  let dir := po.dirname fromPath
  let exactPath := po.resolvePath dir importSource
  if existsSyncB fs exactPath then some exactPath
  else tryExtensions po fs exactPath extensionsList

/-- The edge-kind tag written by `Cartographer.persistSkeleton`:
`imp.isTypeOnly ? 'type-only' : imp.isDynamic ? 'dynamic' : 'static'`. -/
def importTypeOf (imp : ImportStatement) : String :=
  if imp.isTypeOnly then "type-only" else if imp.isDynamic then "dynamic" else "static"

/-- The edge rows the write-back loop of `Cartographer.persistSkeleton`
inserts for a skeleton: one per statement of the `imports` list whose
specifier starts with a relative-path marker and resolves to a local file,
in list order. -/
def derivedEdges (po : PathOps) (fs : FS) (filePath : String) (skeleton : FileSkeleton) :
    List ImportEdgeRecord :=
  skeleton.imports.filterMap (fun imp =>
    if strStartsWith imp.source "." || strStartsWith imp.source "/" then
      (resolveImportPath po fs filePath imp.source).map
        (fun targetPath =>
          { source_path := filePath, target_path := targetPath,
            import_type := importTypeOf imp })
    else none)

/-- The statement batch issued by `Cartographer.persistSkeleton`: the
skeleton upsert (with the MD5 of the current file content, or the empty
string when reading the file throws), the edge clearing for this source, and
one edge insert per derived edge. -/
def persistSkeletonStmts (po : PathOps) (fs : FS) (filePath : String)
    (skeleton : FileSkeleton) : List AclDatabase.DbStmt :=
  AclDatabase.DbStmt.upsertSkeleton filePath (((fs filePath).map md5Hex).getD "")
      skeleton.language skeleton
    :: AclDatabase.DbStmt.clearImportsForFile filePath
    :: (derivedEdges po fs filePath skeleton).map
        (fun e => AclDatabase.DbStmt.addImportEdge e.source_path e.target_path e.import_type)

namespace Cartographer

/-- Model of `Cartographer.persistSkeleton` as the code executes it: every statement
of the batch goes through `AclDatabase.run`, so each is committed and
serialized individually (there is no surrounding transaction). -/
def persistSkeleton (po : PathOps) (fs : FS) (filePath : String) (skeleton : FileSkeleton)
    (s : Store) : Store :=
  (persistSkeletonStmts po fs filePath skeleton).foldl
    (fun st stmt => AclDatabase.runStmt stmt st) s

/-- The collaborators of a `Cartographer` instance: the path primitives, the
filesystem, the external parser (`parseFile(absolutePath, maxFileSizeBytes)`,
opaque per the specification scope; `none` models a declined parse), and
`resolve(config.workspacePath, filePath)` as a function of the request
path. -/
structure Env where
  po : PathOps
  fs : FS
  parse : String → Option FileSkeleton
  resolveWs : String → String

/-- The mutable state a `Cartographer` instance owns: the skeleton cache and
the database, plus the logical clock supplying `Date.now()` readings (bumped
at every cache operation that reads the clock). -/
structure State where
  cache : SkeletonCache FileSkeleton
  store : Store
  clock : Nat
deriving DecidableEq

/-- Model of `Cartographer.getSkeleton`: memory cache (fingerprint-validated), then
database record (deserialized, written into the memory cache, returned with
no fingerprint re-check), then the external parser, whose produced skeleton
is written through to the memory cache and the database. -/
def getSkeleton (env : Env) (st : State) (filePath : String) :
    Option FileSkeleton × State :=
  let absolutePath := env.resolveWs filePath
  let res := st.cache.getIfValid env.fs absolutePath st.clock
  let st1 : State := { st with cache := res.2, clock := st.clock + 1 }
  match res.1 with
  | some cached => (some cached, st1)
  | none =>
    match AclDatabase.getSkeletonRow st1.store.mem absolutePath with
    | some dbRecord =>
      let skeleton := dbRecord.skeleton_json
      let st2 : State :=
        { st1 with
          cache := st1.cache.set env.fs absolutePath skeleton st1.clock
          clock := st1.clock + 1 }
      (some skeleton, st2)
    | none =>
      match env.parse absolutePath with
      | none => (none, st1)
      | some skeleton =>
        let st2 : State :=
          { st1 with
            cache := st1.cache.set env.fs absolutePath skeleton st1.clock
            clock := st1.clock + 1 }
        let st3 : State :=
          { st2 with store := persistSkeleton env.po env.fs absolutePath skeleton st2.store }
        (some skeleton, st3)

/-- Model of `Cartographer.refreshSkeleton`: invalidate the memory cache (cancelling
any pending debounce timer), delete the database skeleton record and the
outgoing edges (each through `AclDatabase.run`), then re-enter
`getSkeleton`. -/
def refreshSkeleton (env : Env) (st : State) (filePath : String) :
    Option FileSkeleton × State :=
  let absolutePath := env.resolveWs filePath
  let cache1 := st.cache.invalidate absolutePath
  let store1 := AclDatabase.runStmt (.deleteSkeleton absolutePath) st.store
  let store2 := AclDatabase.runStmt (.clearImportsForFile absolutePath) store1
  getSkeleton env { st with cache := cache1, store := store2 } filePath

end Cartographer

/-- The neighbour list one BFS expansion of `Cartographer.getRelatedFiles`
walks: targets of the edges out of the path (`database.getImports`) followed
by sources of the edges into it (`database.getImporters`). -/
def nbrs (g : List ImportEdgeRecord) (path : String) : List String :=
  (g.filter (fun r => r.source_path = path)).map ImportEdgeRecord.target_path ++
    (g.filter (fun r => r.target_path = path)).map ImportEdgeRecord.source_path

/-- The while loop of `Cartographer.getRelatedFiles`: FIFO queue of
(path, depth) pairs; a popped pair is skipped when already visited or beyond
the depth bound, otherwise the path is visited (the visited list is kept in
reverse insertion order) and its not-yet-visited neighbours are enqueued one
level deeper.  The loop always terminates; the explicit fuel argument makes
the recursion structural, and `bfsFuel` below is proved sufficient. -/
def bfsAux (g : List ImportEdgeRecord) (depth : Nat) :
    Nat → List (String × Nat) → List String → List String
  | 0, _, visited => visited
  | _ + 1, [], visited => visited
  | fuel + 1, (path, currentDepth) :: rest, visited =>
    if path ∈ visited ∨ depth < currentDepth then
      bfsAux g depth fuel rest visited
    else
      let visited1 := path :: visited
      let pushes := ((nbrs g path).filter (fun t => ¬ t ∈ visited1)).map
        (fun t => (t, currentDepth + 1))
      bfsAux g depth fuel (rest ++ pushes) visited1

/-- Every node name occurring in the edge list (sources and targets). -/
def endpointsList (g : List ImportEdgeRecord) : List String :=
  g.flatMap (fun e => [e.source_path, e.target_path])

/-- Fuel sufficient to run the BFS loop to completion from the initial
queue. -/
def bfsFuel (g : List ImportEdgeRecord) : Nat :=
  (endpointsList g).length * (2 * g.length + 1) + 1

/-- Model of `Cartographer.getRelatedFiles` on a given edge list: run the loop from
the origin at depth 0, then remove the origin from the visited set. -/
def getRelatedFilesList (g : List ImportEdgeRecord) (absolutePath : String) (depth : Nat) :
    List String :=
  (bfsAux g depth (bfsFuel g) [(absolutePath, 0)] []).erase absolutePath

/-- Model of `Cartographer.getRelatedFiles`: queries run against the live in-memory
database of the store owned by the cartographer. -/
def Cartographer.getRelatedFiles (env : Cartographer.Env) (st : Cartographer.State)
    (filePath : String) (depth : Nat) : List String :=
  getRelatedFilesList st.store.mem.importGraph (env.resolveWs filePath) depth

/-- One expansion step of the reachable set: the set itself plus every
neighbour (in either edge direction) of a member. -/
def ballStep (g : List ImportEdgeRecord) (s : List String) : List String :=
  s ++ s.flatMap (nbrs g)

/-- The set of file identities reachable from `start` within `n` hops over
the edges of `g` traversed in both directions (as a list, membership giving
the set). -/
def ball (g : List ImportEdgeRecord) (start : String) : Nat → List String
  | 0 => [start]
  | n + 1 => ballStep g (ball g start n)

/-- Decreasing measure for the BFS loop of `Cartographer.getRelatedFiles`:
the number of unvisited endpoint occurrences, weighted by the largest
possible queue growth of one expansion, plus the queue length.  Every loop
iteration strictly decreases it, which is why `bfsFuel` suffices. -/
def bfsMeasure (g : List ImportEdgeRecord) (q : List (String × Nat)) (V : List String) :
    Nat :=
  ((endpointsList g).filter (fun x => ! V.contains x)).length * (2 * g.length + 1) + q.length

/-- Loop invariant of the breadth-first traversal of
`Cartographer.getRelatedFiles` at frontier stage `k`: the queue is a stage-k
segment followed by a stage-(k+1) segment; queue entries lie within `k+1`
hops as their labels state; visited nodes lie within the depth bound and are
pairwise distinct; every node within `k - 1` hops is visited; every node
within `k` hops is visited or queued at label `k`; and every visited node
has been expanded — each of its neighbours is visited, queued, or (only
while draining the final overdepth segment) beyond the depth bound. -/
structure BfsInv (g : List ImportEdgeRecord) (start : String) (d : Nat) (k : Nat)
    (q : List (String × Nat)) (V : List String) : Prop where
  ksucc : k ≤ d + 1
  split : ∃ q1 q2, q = q1 ++ q2 ∧ (∀ pr ∈ q1, pr.2 = k) ∧ (∀ pr ∈ q2, pr.2 = k + 1)
  qtop : k = d + 1 → ∀ pr ∈ q, pr.2 = k
  sound_q : ∀ pr ∈ q, pr.1 ∈ ball g start pr.2
  sound_V : ∀ v ∈ V, v ∈ ball g start d
  nodupV : V.Nodup
  prev : 1 ≤ k → ∀ v ∈ ball g start (k - 1), v ∈ V
  cover : k ≤ d → ∀ v ∈ ball g start k, v ∈ V ∨ ∃ pr, pr ∈ q ∧ pr.1 = v ∧ pr.2 = k
  expanded : ∀ u ∈ V, ∀ v ∈ nbrs g u, v ∈ V ∨ (∃ pr, pr ∈ q ∧ pr.1 = v) ∨
    (k = d + 1 ∧ v ∉ ball g start d)

theorem mapGet_mapSet_self {β : Type u} (l : List (String × β)) (k : String) (v : β) :
    mapGet (mapSet l k v) k = some v := by
  induction l with
  | nil => simp [mapSet, mapGet]
  | cons p rest ih =>
    by_cases h : p.1 = k
    · simp [mapSet, mapGet, h]
    · simp [mapSet, mapGet, h, ih]

theorem mapGet_mapSet_ne {β : Type u} (l : List (String × β)) (k k2 : String) (v : β)
    (h : k2 ≠ k) : mapGet (mapSet l k v) k2 = mapGet l k2 := by
  have hk : ¬ k = k2 := fun hk => h hk.symm
  induction l with
  | nil => simp [mapSet, mapGet, hk]
  | cons p rest ih =>
    by_cases hp : p.1 = k
    · simp [mapSet, mapGet, hp, hk]
    · simp only [mapSet, hp, if_false]
      by_cases hp2 : p.1 = k2 <;> simp [mapGet, hp2, ih]

theorem mapGet_mapDelete_self {β : Type u} (l : List (String × β)) (k : String) :
    mapGet (mapDelete l k) k = none := by
  induction l with
  | nil => simp [mapDelete, mapGet]
  | cons p rest ih =>
    rcases p with ⟨k2, v⟩
    by_cases h : k2 = k
    · simpa [mapDelete, h] using ih
    · simpa [mapDelete, mapGet, h] using ih

theorem mapGet_mapDelete_ne {β : Type u} (l : List (String × β)) (k k2 : String)
    (h : k2 ≠ k) : mapGet (mapDelete l k) k2 = mapGet l k2 := by
  have hk : ¬ k = k2 := fun e => h e.symm
  induction l with
  | nil => rfl
  | cons p rest ih =>
    rcases p with ⟨ka, v⟩
    by_cases hp : ka = k
    · simp [mapDelete, mapGet, hp, hk, ih]
    · by_cases hp2 : ka = k2
      · simp [mapDelete, mapGet, hp, hp2, h]
      · simp [mapDelete, mapGet, hp, hp2, ih]

theorem md5Hex_inj {a b : String} (h : md5Hex a = md5Hex b) : a = b := by
  have hd := congrArg String.data h
  simp only [md5Hex, String.data_append] at hd
  exact String.ext (List.append_cancel_left hd)

/-- C2: for a path with a cached entry stored with the fingerprint of
content `c0`, `getIfValid` returns the stored value when the current on-disk
content is still `c0` (keeping the entry, with refreshed recency), and
returns `none` and removes the entry when the current content differs from
`c0` or no fingerprint is obtainable; the fingerprint comparison is redone
on this very read. -/
theorem skeletonCache_fingerprint_invariant {T : Type} (sc : SkeletonCache T) (fs : FS)
    (filePath : String) (now : Nat) (entry : CacheEntry T) (c0 : String)
    (hmem : mapGet sc.memoryCache.cache filePath = some entry)
    (hstored : entry.hash = md5Hex c0) :
    (fs filePath = some c0 →
      (sc.getIfValid fs filePath now).1 = some entry.value ∧
      mapGet (sc.getIfValid fs filePath now).2.memoryCache.cache filePath =
        some { entry with accessedAt := now }) ∧
    ((∀ c1, fs filePath = some c1 → c1 ≠ c0) →
      (sc.getIfValid fs filePath now).1 = none ∧
      mapGet (sc.getIfValid fs filePath now).2.memoryCache.cache filePath = none) := by
  have hget : sc.memoryCache.get filePath now =
      (some { entry with accessedAt := now },
        { sc.memoryCache with
          cache := mapSet sc.memoryCache.cache filePath { entry with accessedAt := now } }) := by
    simp [LRUCache.get, hmem]
  constructor
  · intro hfs
    have hhash : computeFileHash fs filePath = some entry.hash := by
      simp [computeFileHash, hfs, hstored]
    simp [SkeletonCache.getIfValid, hget, hhash, mapGet_mapSet_self]
  · intro hne
    have hhash : computeFileHash fs filePath ≠ some (md5Hex c0) := by
      intro hcontra
      cases hfs : fs filePath with
      | none => simp [computeFileHash, hfs] at hcontra
      | some c1 =>
        simp [computeFileHash, hfs] at hcontra
        exact hne c1 hfs (md5Hex_inj hcontra)
    simp [SkeletonCache.getIfValid, hget, hstored, hhash, LRUCache.delete,
      mapGet_mapDelete_self]

/-- Witness for C2 at a concrete cache and filesystem. -/
theorem skeletonCache_fingerprint_invariant_witness :
    ((SkeletonCache.getIfValid
        (⟨⟨[("/w/a.ts", ⟨7, md5Hex "old", 3⟩)], 5⟩, [], 500⟩ : SkeletonCache Nat)
        (fun p => if p = "/w/a.ts" then some "old" else none) "/w/a.ts" 9).1 = some 7) ∧
    ((SkeletonCache.getIfValid
        (⟨⟨[("/w/a.ts", ⟨7, md5Hex "old", 3⟩)], 5⟩, [], 500⟩ : SkeletonCache Nat)
        (fun p => if p = "/w/a.ts" then some "new" else none) "/w/a.ts" 9).1 = none ∧
      mapGet (SkeletonCache.getIfValid
        (⟨⟨[("/w/a.ts", ⟨7, md5Hex "old", 3⟩)], 5⟩, [], 500⟩ : SkeletonCache Nat)
        (fun p => if p = "/w/a.ts" then some "new" else none) "/w/a.ts" 9).2.memoryCache.cache
        "/w/a.ts" = none) := by
  refine ⟨?_, ?_⟩
  · exact ((skeletonCache_fingerprint_invariant
      ⟨⟨[("/w/a.ts", ⟨7, md5Hex "old", 3⟩)], 5⟩, [], 500⟩
      (fun p => if p = "/w/a.ts" then some "old" else none) "/w/a.ts" 9
      ⟨7, md5Hex "old", 3⟩ "old" (by simp [mapGet]) rfl).1 (by simp)).1
  · exact (skeletonCache_fingerprint_invariant
      ⟨⟨[("/w/a.ts", ⟨7, md5Hex "old", 3⟩)], 5⟩, [], 500⟩
      (fun p => if p = "/w/a.ts" then some "new" else none) "/w/a.ts" 9
      ⟨7, md5Hex "old", 3⟩ "old" (by simp [mapGet]) rfl).2
      (by intro c1 h1; simp at h1; subst h1; decide)

theorem getIfValid_no_entry {T : Type} (sc : SkeletonCache T) (fs : FS) (p : String)
    (now : Nat) (h : mapGet sc.memoryCache.cache p = none) :
    sc.getIfValid fs p now = (none, sc) := by
  simp [SkeletonCache.getIfValid, LRUCache.get, h]

theorem getIfValid_entry_hit {T : Type} (sc : SkeletonCache T) (fs : FS) (p : String)
    (now : Nat) (entry : CacheEntry T) (h : mapGet sc.memoryCache.cache p = some entry)
    (hh : computeFileHash fs p = some entry.hash) :
    sc.getIfValid fs p now =
      (some entry.value,
        { sc with memoryCache :=
          { sc.memoryCache with
            cache := mapSet sc.memoryCache.cache p { entry with accessedAt := now } } }) := by
  simp [SkeletonCache.getIfValid, LRUCache.get, h, hh]

theorem mapGet_skeletonCacheSet_self {T : Type} (sc : SkeletonCache T) (fs : FS)
    (p : String) (v : T) (now : Nat) (hsh : String)
    (hh : computeFileHash fs p = some hsh) :
    mapGet (SkeletonCache.set sc fs p v now).memoryCache.cache p =
      some { value := v, hash := hsh, accessedAt := now } := by
  simp [SkeletonCache.set, hh, LRUCache.set, mapGet_mapSet_self]

theorem skeletonCacheSet_debounceTimers {T : Type} (sc : SkeletonCache T) (fs : FS)
    (p : String) (v : T) (now : Nat) :
    (SkeletonCache.set sc fs p v now).debounceTimers = sc.debounceTimers := by
  cases h : computeFileHash fs p <;> simp [SkeletonCache.set, h]

theorem getSkeletonRow_after_refresh_clear (db : DbContents) (p : String) :
    AclDatabase.getSkeletonRow
      (AclDatabase.clearImportsForFileDb (AclDatabase.deleteSkeletonDb db p) p) p = none := by
  simp only [AclDatabase.getSkeletonRow, AclDatabase.clearImportsForFileDb,
    AclDatabase.deleteSkeletonDb]
  rw [List.find?_eq_none]
  intro r hr
  simp only [List.mem_filter, decide_eq_true_eq] at hr
  simpa using hr.2

/-- C10: when the memory cache holds no entry for the resolved path, the
store holds no skeleton record for it, and the external parser declines,
`getSkeleton` returns absent (a value, not an exception) and leaves the
memory cache, the debounce timers and the store (in-memory and on-disk)
unchanged: no absence marker is cached in either layer. -/
theorem getSkeleton_absent_no_caching (env : Cartographer.Env) (st : Cartographer.State)
    (filePath : String)
    (hmem : mapGet st.cache.memoryCache.cache (env.resolveWs filePath) = none)
    (hdb : AclDatabase.getSkeletonRow st.store.mem (env.resolveWs filePath) = none)
    (hparse : env.parse (env.resolveWs filePath) = none) :
    (Cartographer.getSkeleton env st filePath).1 = none ∧
    (Cartographer.getSkeleton env st filePath).2.cache = st.cache ∧
    (Cartographer.getSkeleton env st filePath).2.store = st.store := by
  have hvalid := getIfValid_no_entry st.cache env.fs (env.resolveWs filePath) st.clock hmem
  refine ⟨?_, ?_, ?_⟩ <;> simp [Cartographer.getSkeleton, hvalid, hdb, hparse]

/-- Witness for C10 at a concrete environment and state. -/
theorem getSkeleton_absent_no_caching_witness :
    (Cartographer.getSkeleton
      ⟨⟨fun _ => "", fun _ s => s, fun a b => a ++ "/" ++ b⟩, fun _ => none,
        fun _ => none, fun p => p⟩
      ⟨⟨⟨[], 5000⟩, [], 500⟩, ⟨⟨[], []⟩, ⟨[], []⟩⟩, 0⟩ "/w/a.ts").1 = none ∧
    (Cartographer.getSkeleton
      ⟨⟨fun _ => "", fun _ s => s, fun a b => a ++ "/" ++ b⟩, fun _ => none,
        fun _ => none, fun p => p⟩
      ⟨⟨⟨[], 5000⟩, [], 500⟩, ⟨⟨[], []⟩, ⟨[], []⟩⟩, 0⟩ "/w/a.ts").2.store =
      ⟨⟨[], []⟩, ⟨[], []⟩⟩ :=
  ⟨(getSkeleton_absent_no_caching
      ⟨⟨fun _ => "", fun _ s => s, fun a b => a ++ "/" ++ b⟩, fun _ => none,
        fun _ => none, fun p => p⟩
      ⟨⟨⟨[], 5000⟩, [], 500⟩, ⟨⟨[], []⟩, ⟨[], []⟩⟩, 0⟩ "/w/a.ts" rfl rfl rfl).1,
    (getSkeleton_absent_no_caching
      ⟨⟨fun _ => "", fun _ s => s, fun a b => a ++ "/" ++ b⟩, fun _ => none,
        fun _ => none, fun p => p⟩
      ⟨⟨⟨[], 5000⟩, [], 500⟩, ⟨⟨[], []⟩, ⟨[], []⟩⟩, 0⟩ "/w/a.ts" rfl rfl rfl).2.2⟩

/-- C7: on a memory-cache miss for the resolved path with a database hit,
`getSkeleton` deserializes the stored record, installs the skeleton in the
memory cache (with a fingerprint computed from the current file content),
and returns it; the store is untouched.  The stored `file_hash` of the
record is unconstrained here: no comparison with the live fingerprint
happens at this layer. -/
theorem getSkeleton_db_hit (env : Cartographer.Env) (st : Cartographer.State)
    (filePath : String) (dbRecord : SkeletonRecord) (c : String)
    (hmem : mapGet st.cache.memoryCache.cache (env.resolveWs filePath) = none)
    (hdb : AclDatabase.getSkeletonRow st.store.mem (env.resolveWs filePath) = some dbRecord)
    (hfs : env.fs (env.resolveWs filePath) = some c) :
    (Cartographer.getSkeleton env st filePath).1 = some dbRecord.skeleton_json ∧
    (Cartographer.getSkeleton env st filePath).2.store = st.store ∧
    mapGet (Cartographer.getSkeleton env st filePath).2.cache.memoryCache.cache
        (env.resolveWs filePath) =
      some { value := dbRecord.skeleton_json, hash := md5Hex c,
             accessedAt := st.clock + 1 } := by
  have hvalid := getIfValid_no_entry st.cache env.fs (env.resolveWs filePath) st.clock hmem
  have hhash : computeFileHash env.fs (env.resolveWs filePath) = some (md5Hex c) := by
    simp [computeFileHash, hfs]
  refine ⟨?_, ?_, ?_⟩
  · simp [Cartographer.getSkeleton, hvalid, hdb]
  · simp [Cartographer.getSkeleton, hvalid, hdb]
  · simp only [Cartographer.getSkeleton, hvalid, hdb]
    exact mapGet_skeletonCacheSet_self _ _ _ _ _ _ hhash

/-- Witness for C7: the stored record hash differs from the live
fingerprint, and the record is returned and cached regardless. -/
theorem getSkeleton_db_hit_witness :
    (Cartographer.getSkeleton
      ⟨⟨fun _ => "", fun _ s => s, fun a b => a ++ "/" ++ b⟩,
        (fun p => if p = "/w/a.ts" then some "current" else none),
        fun _ => none, fun p => p⟩
      ⟨⟨⟨[], 5000⟩, [], 500⟩,
        ⟨⟨[⟨"/w/a.ts", md5Hex "older", "typescript",
            ⟨"/w/a.ts", "typescript", [], [], [], [], []⟩⟩], []⟩, ⟨[], []⟩⟩, 0⟩
      "/w/a.ts").1 = some ⟨"/w/a.ts", "typescript", [], [], [], [], []⟩ := by
  exact (getSkeleton_db_hit
    ⟨⟨fun _ => "", fun _ s => s, fun a b => a ++ "/" ++ b⟩,
      (fun p => if p = "/w/a.ts" then some "current" else none),
      fun _ => none, fun p => p⟩
    ⟨⟨⟨[], 5000⟩, [], 500⟩,
      ⟨⟨[⟨"/w/a.ts", md5Hex "older", "typescript",
          ⟨"/w/a.ts", "typescript", [], [], [], [], []⟩⟩], []⟩, ⟨[], []⟩⟩, 0⟩
    "/w/a.ts"
    ⟨"/w/a.ts", md5Hex "older", "typescript", ⟨"/w/a.ts", "typescript", [], [], [], [], []⟩⟩
    "current" rfl rfl rfl).1

theorem getSkeleton_memory_hit (env : Cartographer.Env) (st : Cartographer.State)
    (filePath : String) (v : FileSkeleton) (sc2 : SkeletonCache FileSkeleton)
    (h : st.cache.getIfValid env.fs (env.resolveWs filePath) st.clock = (some v, sc2)) :
    Cartographer.getSkeleton env st filePath =
      (some v, { st with cache := sc2, clock := st.clock + 1 }) := by
  simp [Cartographer.getSkeleton, h]

/-- C8: when the store holds a skeleton record for the resolved path, the
memory cache holds no entry, and the current on-disk content digests
differently from the recorded `file_hash` (the file changed after the
record was written), `getSkeleton` still returns the stored (stale)
skeleton, installs it in the memory cache with a fingerprint computed from
the current on-disk bytes rather than the recorded hash, and a subsequent
`getSkeleton` with unchanged content is served the same stale skeleton as a
valid memory-cache hit, leaving the store untouched. -/
theorem getSkeleton_stale_db_record (env : Cartographer.Env) (st : Cartographer.State)
    (filePath : String) (dbRecord : SkeletonRecord) (c : String)
    (hmem : mapGet st.cache.memoryCache.cache (env.resolveWs filePath) = none)
    (hdb : AclDatabase.getSkeletonRow st.store.mem (env.resolveWs filePath) = some dbRecord)
    (hfs : env.fs (env.resolveWs filePath) = some c)
    (hstale : dbRecord.file_hash ≠ md5Hex c) :
    (Cartographer.getSkeleton env st filePath).1 = some dbRecord.skeleton_json ∧
    mapGet (Cartographer.getSkeleton env st filePath).2.cache.memoryCache.cache
        (env.resolveWs filePath) =
      some { value := dbRecord.skeleton_json, hash := md5Hex c,
             accessedAt := st.clock + 1 } ∧
    md5Hex c ≠ dbRecord.file_hash ∧
    (Cartographer.getSkeleton env
        (Cartographer.getSkeleton env st filePath).2 filePath).1 =
      some dbRecord.skeleton_json ∧
    (Cartographer.getSkeleton env
        (Cartographer.getSkeleton env st filePath).2 filePath).2.store =
      (Cartographer.getSkeleton env st filePath).2.store := by
  have hvalid := getIfValid_no_entry st.cache env.fs (env.resolveWs filePath) st.clock hmem
  have hhash : computeFileHash env.fs (env.resolveWs filePath) = some (md5Hex c) := by
    simp [computeFileHash, hfs]
  have h1 : (Cartographer.getSkeleton env st filePath).1 = some dbRecord.skeleton_json := by
    simp [Cartographer.getSkeleton, hvalid, hdb]
  have h2 : mapGet (Cartographer.getSkeleton env st filePath).2.cache.memoryCache.cache
      (env.resolveWs filePath) =
      some { value := dbRecord.skeleton_json, hash := md5Hex c,
             accessedAt := st.clock + 1 } := by
    simp only [Cartographer.getSkeleton, hvalid, hdb]
    exact mapGet_skeletonCacheSet_self _ _ _ _ _ _ hhash
  have hhit := getIfValid_entry_hit
    (Cartographer.getSkeleton env st filePath).2.cache env.fs (env.resolveWs filePath)
    (Cartographer.getSkeleton env st filePath).2.clock
    { value := dbRecord.skeleton_json, hash := md5Hex c, accessedAt := st.clock + 1 }
    h2 hhash
  have hfinal := getSkeleton_memory_hit env (Cartographer.getSkeleton env st filePath).2
    filePath _ _ hhit
  exact ⟨h1, h2, fun h => hstale h.symm, by rw [hfinal], by rw [hfinal]⟩

/-- Witness for C8 at a concrete stale store record. -/
theorem getSkeleton_stale_db_record_witness :
    (Cartographer.getSkeleton
      ⟨⟨fun _ => "", fun _ s => s, fun a b => a ++ "/" ++ b⟩,
        (fun p => if p = "/w/a.ts" then some "edited-offline" else none),
        fun _ => none, fun p => p⟩
      ⟨⟨⟨[], 5000⟩, [], 500⟩,
        ⟨⟨[⟨"/w/a.ts", md5Hex "original", "typescript",
            ⟨"/w/a.ts", "typescript", [], [], [], [], []⟩⟩], []⟩, ⟨[], []⟩⟩, 0⟩
      "/w/a.ts").1 = some ⟨"/w/a.ts", "typescript", [], [], [], [], []⟩ := by
  exact (getSkeleton_stale_db_record
    ⟨⟨fun _ => "", fun _ s => s, fun a b => a ++ "/" ++ b⟩,
      (fun p => if p = "/w/a.ts" then some "edited-offline" else none),
      fun _ => none, fun p => p⟩
    ⟨⟨⟨[], 5000⟩, [], 500⟩,
      ⟨⟨[⟨"/w/a.ts", md5Hex "original", "typescript",
          ⟨"/w/a.ts", "typescript", [], [], [], [], []⟩⟩], []⟩, ⟨[], []⟩⟩, 0⟩
    "/w/a.ts"
    ⟨"/w/a.ts", md5Hex "original", "typescript", ⟨"/w/a.ts", "typescript", [], [], [], [], []⟩⟩
    "edited-offline" rfl rfl rfl (by intro h; exact absurd (md5Hex_inj h) (by decide))).1

/-- C9: `refreshSkeleton` removes the memory-cache entry and any pending
debounce timer for the resolved path, deletes the stored skeleton record and
the outgoing edges, and then always reaches the cold-parse branch: whatever
the previous cache validity was, the returned value is exactly the parser
verdict on the resolved path (absent when the parser declines), and when the
parser declines, both layers stay clear for that path. -/
theorem refreshSkeleton_forces_cold_parse (env : Cartographer.Env) (st : Cartographer.State)
    (filePath : String) :
    (Cartographer.refreshSkeleton env st filePath).1 = env.parse (env.resolveWs filePath) ∧
    mapGet (Cartographer.refreshSkeleton env st filePath).2.cache.debounceTimers
      (env.resolveWs filePath) = none ∧
    (env.parse (env.resolveWs filePath) = none →
      mapGet (Cartographer.refreshSkeleton env st filePath).2.cache.memoryCache.cache
        (env.resolveWs filePath) = none ∧
      AclDatabase.getSkeletonRow (Cartographer.refreshSkeleton env st filePath).2.store.mem
        (env.resolveWs filePath) = none ∧
      (Cartographer.refreshSkeleton env st filePath).2.store.mem.importGraph.filter
        (fun r => r.source_path = env.resolveWs filePath) = []) := by
  have hmem1 : mapGet (st.cache.invalidate (env.resolveWs filePath)).memoryCache.cache
      (env.resolveWs filePath) = none := by
    simp [SkeletonCache.invalidate, LRUCache.delete, mapGet_mapDelete_self]
  have htimer1 : mapGet (st.cache.invalidate (env.resolveWs filePath)).debounceTimers
      (env.resolveWs filePath) = none := by
    simp [SkeletonCache.invalidate, mapGet_mapDelete_self]
  have hvalid := getIfValid_no_entry (st.cache.invalidate (env.resolveWs filePath)) env.fs
    (env.resolveWs filePath) st.clock hmem1
  have hdb : AclDatabase.getSkeletonRow
      (AclDatabase.clearImportsForFileDb
        (AclDatabase.deleteSkeletonDb st.store.mem (env.resolveWs filePath))
        (env.resolveWs filePath)) (env.resolveWs filePath) = none :=
    getSkeletonRow_after_refresh_clear st.store.mem (env.resolveWs filePath)
  have hedges : (AclDatabase.clearImportsForFileDb
      (AclDatabase.deleteSkeletonDb st.store.mem (env.resolveWs filePath))
      (env.resolveWs filePath)).importGraph.filter
        (fun r => r.source_path = env.resolveWs filePath) = [] := by
    simp only [AclDatabase.clearImportsForFileDb, AclDatabase.deleteSkeletonDb]
    rw [List.filter_eq_nil_iff]
    intro r hr
    simp only [List.mem_filter, decide_eq_true_eq] at hr
    simp [hr.2]
  cases hp : env.parse (env.resolveWs filePath) with
  | none =>
    refine ⟨?_, ?_, fun _ => ⟨?_, ?_, ?_⟩⟩ <;>
      simp [Cartographer.refreshSkeleton, Cartographer.getSkeleton, AclDatabase.runStmt,
        AclDatabase.applyStmt, hvalid, hdb, hp, hmem1, htimer1, hedges]
  | some sk =>
    refine ⟨?_, ?_, fun hcontra => Option.noConfusion hcontra⟩ <;>
      simp [Cartographer.refreshSkeleton, Cartographer.getSkeleton, AclDatabase.runStmt,
        AclDatabase.applyStmt, hvalid, hdb, hp, skeletonCacheSet_debounceTimers, htimer1]

/-- Witness for C9: a refresh on a state whose memory cache still holds a
valid entry for the path re-parses anyway and returns the parser verdict. -/
theorem refreshSkeleton_forces_cold_parse_witness :
    (Cartographer.refreshSkeleton
      ⟨⟨fun _ => "", fun _ s => s, fun a b => a ++ "/" ++ b⟩,
        (fun p => if p = "/w/a.ts" then some "body" else none),
        (fun _ => some ⟨"/w/a.ts", "typescript", [], [], [], [], []⟩),
        fun p => p⟩
      ⟨⟨⟨[("/w/a.ts", ⟨⟨"/w/a.ts", "python", [], [], [], [], []⟩, md5Hex "body", 0⟩)], 5000⟩,
          [("/w/a.ts", 777)], 500⟩, ⟨⟨[], []⟩, ⟨[], []⟩⟩, 0⟩
      "/w/a.ts").1 = some ⟨"/w/a.ts", "typescript", [], [], [], [], []⟩ ∧
    mapGet (Cartographer.refreshSkeleton
      ⟨⟨fun _ => "", fun _ s => s, fun a b => a ++ "/" ++ b⟩,
        (fun p => if p = "/w/a.ts" then some "body" else none),
        (fun _ => some ⟨"/w/a.ts", "typescript", [], [], [], [], []⟩),
        fun p => p⟩
      ⟨⟨⟨[("/w/a.ts", ⟨⟨"/w/a.ts", "python", [], [], [], [], []⟩, md5Hex "body", 0⟩)], 5000⟩,
          [("/w/a.ts", 777)], 500⟩, ⟨⟨[], []⟩, ⟨[], []⟩⟩, 0⟩
      "/w/a.ts").2.cache.debounceTimers "/w/a.ts" = none := by
  refine ⟨(refreshSkeleton_forces_cold_parse
      ⟨⟨fun _ => "", fun _ s => s, fun a b => a ++ "/" ++ b⟩,
        (fun p => if p = "/w/a.ts" then some "body" else none),
        (fun _ => some ⟨"/w/a.ts", "typescript", [], [], [], [], []⟩),
        fun p => p⟩
      ⟨⟨⟨[("/w/a.ts", ⟨⟨"/w/a.ts", "python", [], [], [], [], []⟩, md5Hex "body", 0⟩)], 5000⟩,
          [("/w/a.ts", 777)], 500⟩, ⟨⟨[], []⟩, ⟨[], []⟩⟩, 0⟩
      "/w/a.ts").1, (refreshSkeleton_forces_cold_parse
      ⟨⟨fun _ => "", fun _ s => s, fun a b => a ++ "/" ++ b⟩,
        (fun p => if p = "/w/a.ts" then some "body" else none),
        (fun _ => some ⟨"/w/a.ts", "typescript", [], [], [], [], []⟩),
        fun p => p⟩
      ⟨⟨⟨[("/w/a.ts", ⟨⟨"/w/a.ts", "python", [], [], [], [], []⟩, md5Hex "body", 0⟩)], 5000⟩,
          [("/w/a.ts", 777)], 500⟩, ⟨⟨[], []⟩, ⟨[], []⟩⟩, 0⟩
      "/w/a.ts").2.1⟩

theorem upsertSkeletonDb_importGraph (db : DbContents) (p h l : String) (j : FileSkeleton) :
    (AclDatabase.upsertSkeletonDb db p h l j).importGraph = db.importGraph := by
  by_cases hc : db.skeletons.any (fun r => r.file_path = p) <;>
    simp [AclDatabase.upsertSkeletonDb, hc]

theorem mem_addImportEdgeDb (db : DbContents) (sp tp it : String) (e : ImportEdgeRecord) :
    e ∈ (AclDatabase.addImportEdgeDb db sp tp it).importGraph ↔
      e ∈ db.importGraph ∨
        e = { source_path := sp, target_path := tp, import_type := it } := by
  by_cases hc : db.importGraph.contains
      ({ source_path := sp, target_path := tp, import_type := it } : ImportEdgeRecord)
  · have hmemrow : ({ source_path := sp, target_path := tp, import_type := it } :
        ImportEdgeRecord) ∈ db.importGraph := by
      simpa using hc
    simp only [AclDatabase.addImportEdgeDb, hc, if_true]
    constructor
    · exact Or.inl
    · rintro (he | he)
      · exact he
      · exact he ▸ hmemrow
  · have hnot : ({ source_path := sp, target_path := tp, import_type := it } :
        ImportEdgeRecord) ∉ db.importGraph := by simpa using hc
    simp [AclDatabase.addImportEdgeDb, hnot]

theorem mem_foldl_addImportEdgeDb (rows : List ImportEdgeRecord) (db : DbContents)
    (e : ImportEdgeRecord) :
    e ∈ (rows.foldl (fun d r =>
        AclDatabase.addImportEdgeDb d r.source_path r.target_path r.import_type)
        db).importGraph ↔
      e ∈ db.importGraph ∨ e ∈ rows := by
  induction rows generalizing db with
  | nil => simp
  | cons r rest ih =>
    simp only [List.foldl_cons, ih, mem_addImportEdgeDb, List.mem_cons]
    constructor
    · rintro ((he | he) | he)
      · exact Or.inl he
      · exact Or.inr (Or.inl he)
      · exact Or.inr (Or.inr he)
    · rintro (he | he | he)
      · exact Or.inl (Or.inl he)
      · exact Or.inl (Or.inr he)
      · exact Or.inr he

theorem foldl_runStmt_mem (stmts : List AclDatabase.DbStmt) (s : Store) :
    (stmts.foldl (fun st stmt => AclDatabase.runStmt stmt st) s).mem =
      stmts.foldl (fun db stmt => AclDatabase.applyStmt stmt db) s.mem := by
  induction stmts generalizing s with
  | nil => rfl
  | cons stmt rest ih => rw [List.foldl_cons, List.foldl_cons, ih]; rfl

theorem foldl_applyStmt_addEdges (rows : List ImportEdgeRecord) (db : DbContents) :
    ((rows.map (fun e => AclDatabase.DbStmt.addImportEdge e.source_path e.target_path
        e.import_type)).foldl (fun db stmt => AclDatabase.applyStmt stmt db) db) =
      rows.foldl (fun d r =>
        AclDatabase.addImportEdgeDb d r.source_path r.target_path r.import_type) db := by
  induction rows generalizing db with
  | nil => rfl
  | cons r rest ih =>
    simp only [List.map_cons, List.foldl_cons]
    rw [ih]
    rfl

theorem derivedEdges_source {po : PathOps} {fs : FS} {filePath : String}
    {skeleton : FileSkeleton} {e : ImportEdgeRecord}
    (h : e ∈ derivedEdges po fs filePath skeleton) : e.source_path = filePath := by
  simp only [derivedEdges, List.mem_filterMap] at h
  obtain ⟨imp, _, himp⟩ := h
  by_cases hrel : strStartsWith imp.source "." || strStartsWith imp.source "/"
  · rw [if_pos hrel] at himp
    cases hres : resolveImportPath po fs filePath imp.source with
    | none => rw [hres] at himp; exact absurd himp (by simp)
    | some t =>
      rw [hres] at himp
      have ht : ({ source_path := filePath, target_path := t,
                   import_type := importTypeOf imp } : ImportEdgeRecord) = e :=
        Option.some.inj himp
      rw [← ht]
  · rw [if_neg hrel] at himp
    exact absurd himp (by simp)

/-- C3: the write-back of a re-parsed skeleton fully replaces the outgoing
edge set of that source path: afterwards an edge row is stored iff it is
either an old edge of a different source (untouched) or one of the edges
derived from the new parse (whose source is this path); in particular no
previous edge of this source survives unless re-derived, so a source that
imported {A, B} and now imports {B, C} ends with exactly {B, C}. -/
theorem persistSkeleton_replaces_edges (po : PathOps) (fs : FS) (filePath : String)
    (skeleton : FileSkeleton) (s : Store) (e : ImportEdgeRecord) :
    e ∈ (Cartographer.persistSkeleton po fs filePath skeleton s).mem.importGraph ↔
      (e ∈ s.mem.importGraph ∧ e.source_path ≠ filePath) ∨
        e ∈ derivedEdges po fs filePath skeleton := by
  have hmem : (Cartographer.persistSkeleton po fs filePath skeleton s).mem =
      (persistSkeletonStmts po fs filePath skeleton).foldl
        (fun db stmt => AclDatabase.applyStmt stmt db) s.mem :=
    foldl_runStmt_mem _ s
  have hstep : (persistSkeletonStmts po fs filePath skeleton).foldl
      (fun db stmt => AclDatabase.applyStmt stmt db) s.mem =
    (derivedEdges po fs filePath skeleton).foldl
      (fun d r => AclDatabase.addImportEdgeDb d r.source_path r.target_path r.import_type)
      (AclDatabase.clearImportsForFileDb
        (AclDatabase.upsertSkeletonDb s.mem filePath (((fs filePath).map md5Hex).getD "")
          skeleton.language skeleton) filePath) := by
    simp only [persistSkeletonStmts, List.foldl_cons]
    exact foldl_applyStmt_addEdges _ _
  rw [hmem, hstep, mem_foldl_addImportEdgeDb]
  constructor
  · rintro (he | he)
    · simp only [AclDatabase.clearImportsForFileDb, List.mem_filter,
        upsertSkeletonDb_importGraph, decide_eq_true_eq] at he
      exact Or.inl he
    · exact Or.inr he
  · rintro (he | he)
    · refine Or.inl ?_
      simp only [AclDatabase.clearImportsForFileDb, List.mem_filter,
        upsertSkeletonDb_importGraph, decide_eq_true_eq]
      exact he
    · exact Or.inr he

/-- Witness for C3: the {A, B} to {B, C} scenario — after re-persisting, the
edge to B is retained, the edge to C is new, and the edge to A is gone,
while an edge of a different source file survives. -/
theorem persistSkeleton_replaces_edges_witness :
    (({ source_path := "/w/p.ts", target_path := "./b", import_type := "static" } :
        ImportEdgeRecord) ∈
      (Cartographer.persistSkeleton
        ⟨fun _ => "/w", fun _ spec => spec, fun a b => a ++ "/" ++ b⟩
        (fun p => if p = "./b" ∨ p = "./c" then some "x" else none)
        "/w/p.ts"
        ⟨"/w/p.ts", "typescript", [],
          [⟨"./b", [], false, false, 1⟩, ⟨"./c", [], false, false, 2⟩], [], [], []⟩
        ⟨⟨[], [⟨"/w/p.ts", "./a", "static"⟩, ⟨"/w/p.ts", "./b", "static"⟩,
            ⟨"/w/q.ts", "./a", "static"⟩]⟩,
          ⟨[], [⟨"/w/p.ts", "./a", "static"⟩, ⟨"/w/p.ts", "./b", "static"⟩,
            ⟨"/w/q.ts", "./a", "static"⟩]⟩⟩).mem.importGraph) ∧
    (({ source_path := "/w/p.ts", target_path := "./c", import_type := "static" } :
        ImportEdgeRecord) ∈
      (Cartographer.persistSkeleton
        ⟨fun _ => "/w", fun _ spec => spec, fun a b => a ++ "/" ++ b⟩
        (fun p => if p = "./b" ∨ p = "./c" then some "x" else none)
        "/w/p.ts"
        ⟨"/w/p.ts", "typescript", [],
          [⟨"./b", [], false, false, 1⟩, ⟨"./c", [], false, false, 2⟩], [], [], []⟩
        ⟨⟨[], [⟨"/w/p.ts", "./a", "static"⟩, ⟨"/w/p.ts", "./b", "static"⟩,
            ⟨"/w/q.ts", "./a", "static"⟩]⟩,
          ⟨[], [⟨"/w/p.ts", "./a", "static"⟩, ⟨"/w/p.ts", "./b", "static"⟩,
            ⟨"/w/q.ts", "./a", "static"⟩]⟩⟩).mem.importGraph) ∧
    ¬ (({ source_path := "/w/p.ts", target_path := "./a", import_type := "static" } :
        ImportEdgeRecord) ∈
      (Cartographer.persistSkeleton
        ⟨fun _ => "/w", fun _ spec => spec, fun a b => a ++ "/" ++ b⟩
        (fun p => if p = "./b" ∨ p = "./c" then some "x" else none)
        "/w/p.ts"
        ⟨"/w/p.ts", "typescript", [],
          [⟨"./b", [], false, false, 1⟩, ⟨"./c", [], false, false, 2⟩], [], [], []⟩
        ⟨⟨[], [⟨"/w/p.ts", "./a", "static"⟩, ⟨"/w/p.ts", "./b", "static"⟩,
            ⟨"/w/q.ts", "./a", "static"⟩]⟩,
          ⟨[], [⟨"/w/p.ts", "./a", "static"⟩, ⟨"/w/p.ts", "./b", "static"⟩,
            ⟨"/w/q.ts", "./a", "static"⟩]⟩⟩).mem.importGraph) := by
  refine ⟨?_, ?_, ?_⟩
  · exact (persistSkeleton_replaces_edges _ _ _ _ _ _).mpr (Or.inr (by decide))
  · exact (persistSkeleton_replaces_edges _ _ _ _ _ _).mpr (Or.inr (by decide))
  · intro hmem
    rcases (persistSkeleton_replaces_edges _ _ _ _ _ _).mp hmem with h | h
    · exact h.2 (by decide)
    · revert h; decide

/-- C1 counterexample: the write-back batch of the Mapper
(`Cartographer.persistSkeleton`) is not executed inside
`AclDatabase.transaction`; each statement goes through `AclDatabase.run`,
which commits and serializes individually.  Failing the last statement of a
concrete write-back batch (the second edge insert) therefore leaves the
earlier statements persisted: the new skeleton row and the first new edge
are already on disk, the old edge set is already cleared, and nothing is
rolled back, contradicting the claim that any mid-batch failure rolls back
the batch and does not serialize. -/
theorem persistSkeleton_batch_failure_counterexample :
    AclDatabase.runStmts (fun i => i == 3) 0
      (persistSkeletonStmts
        ⟨fun _ => "/w", fun _ spec => spec, fun a b => a ++ "/" ++ b⟩
        (fun p => if p = "/w/p.ts" then some "body"
                  else if p = "./b" ∨ p = "./c" then some "x" else none)
        "/w/p.ts"
        ⟨"/w/p.ts", "typescript", [],
          [⟨"./b", [], false, false, 1⟩, ⟨"./c", [], false, false, 2⟩], [], [], []⟩)
      ⟨⟨[], [⟨"/w/p.ts", "./a", "static"⟩]⟩, ⟨[], [⟨"/w/p.ts", "./a", "static"⟩]⟩⟩ =
      Except.error
        ⟨⟨[⟨"/w/p.ts", md5Hex "body", "typescript",
            ⟨"/w/p.ts", "typescript", [],
              [⟨"./b", [], false, false, 1⟩, ⟨"./c", [], false, false, 2⟩], [], [], []⟩⟩],
          [⟨"/w/p.ts", "./b", "static"⟩]⟩,
         ⟨[⟨"/w/p.ts", md5Hex "body", "typescript",
            ⟨"/w/p.ts", "typescript", [],
              [⟨"./b", [], false, false, 1⟩, ⟨"./c", [], false, false, 2⟩], [], [], []⟩⟩],
          [⟨"/w/p.ts", "./b", "static"⟩]⟩⟩ ∧
    (⟨[⟨"/w/p.ts", md5Hex "body", "typescript",
        ⟨"/w/p.ts", "typescript", [],
          [⟨"./b", [], false, false, 1⟩, ⟨"./c", [], false, false, 2⟩], [], [], []⟩⟩],
       [⟨"/w/p.ts", "./b", "static"⟩]⟩ : DbContents) ≠
      ⟨[], [⟨"/w/p.ts", "./a", "static"⟩]⟩ := by
  exact ⟨rfl, by decide⟩

/-- C1 (amended): a batch of store mutations executed through
`AclDatabase.transaction` does satisfy the claim: if any statement of the
batch fails, the whole batch is rolled back (the in-memory database is
restored to its state at BEGIN), nothing is serialized to disk, and the
caller sees the error — the result carries the store exactly as it was
before the batch.  The Mapper's write-back, however, is not routed through
`transaction`: each of its statements commits and serializes individually,
so there a mid-batch failure leaves the earlier statements persisted (see
the counterexample). -/
theorem transaction_rollback_on_failure (fails : Nat → Bool)
    (stmts : List AclDatabase.DbStmt) (s : Store)
    (hfail : ∃ err, AclDatabase.transactionStmts fails 0 stmts s.mem = .error err) :
    AclDatabase.transactionRun fails stmts s = .error s := by
  obtain ⟨err, herr⟩ := hfail
  simp [AclDatabase.transactionRun, herr]

/-- Witness for the amended C1: the same failing write-back batch as in the
counterexample, executed through `transaction`, returns the untouched
store as the error result. -/
theorem transaction_rollback_on_failure_witness :
    AclDatabase.transactionRun (fun i => i == 3)
      (persistSkeletonStmts
        ⟨fun _ => "/w", fun _ spec => spec, fun a b => a ++ "/" ++ b⟩
        (fun p => if p = "/w/p.ts" then some "body"
                  else if p = "./b" ∨ p = "./c" then some "x" else none)
        "/w/p.ts"
        ⟨"/w/p.ts", "typescript", [],
          [⟨"./b", [], false, false, 1⟩, ⟨"./c", [], false, false, 2⟩], [], [], []⟩)
      ⟨⟨[], [⟨"/w/p.ts", "./a", "static"⟩]⟩, ⟨[], [⟨"/w/p.ts", "./a", "static"⟩]⟩⟩ =
      Except.error
        ⟨⟨[], [⟨"/w/p.ts", "./a", "static"⟩]⟩, ⟨[], [⟨"/w/p.ts", "./a", "static"⟩]⟩⟩ := by
  exact transaction_rollback_on_failure (fun i => i == 3)
    (persistSkeletonStmts
      ⟨fun _ => "/w", fun _ spec => spec, fun a b => a ++ "/" ++ b⟩
      (fun p => if p = "/w/p.ts" then some "body"
                else if p = "./b" ∨ p = "./c" then some "x" else none)
      "/w/p.ts"
      ⟨"/w/p.ts", "typescript", [],
        [⟨"./b", [], false, false, 1⟩, ⟨"./c", [], false, false, 2⟩], [], [], []⟩)
    ⟨⟨[], [⟨"/w/p.ts", "./a", "static"⟩]⟩, ⟨[], [⟨"/w/p.ts", "./a", "static"⟩]⟩⟩
    ⟨(), rfl⟩

theorem mapSet_mapGet_eq {β : Type u} (l : List (String × β)) (k : String) (v : β)
    (h : mapGet l k = some v) : mapSet l k v = l := by
  induction l with
  | nil => simp [mapGet] at h
  | cons p rest ih =>
    rcases p with ⟨ka, va⟩
    by_cases hp : ka = k
    · subst hp
      simp [mapGet] at h
      simp [mapSet, h]
    · simp only [mapGet, if_neg hp] at h
      simp [mapSet, hp, ih h]

theorem mapSet_mapSet {β : Type u} (l : List (String × β)) (k : String) (v1 v2 : β) :
    mapSet (mapSet l k v1) k v2 = mapSet l k v2 := by
  induction l with
  | nil => simp [mapSet]
  | cons p rest ih =>
    rcases p with ⟨ka, va⟩
    by_cases hp : ka = k
    · simp [mapSet, hp]
    · simp [mapSet, hp, ih]

theorem mapSet_keys {β : Type u} (l : List (String × β)) (k : String) (v : β) :
    (mapSet l k v).map Prod.fst =
      if (mapGet l k).isNone then l.map Prod.fst ++ [k] else l.map Prod.fst := by
  induction l with
  | nil => simp [mapSet, mapGet]
  | cons q qs ih =>
    rcases q with ⟨kb, vb⟩
    by_cases hq : kb = k
    · simp [mapSet, mapGet, hq]
    · simp only [mapSet, if_neg hq, List.map_cons, mapGet, ih]
      by_cases hnone : (mapGet qs k).isNone <;> simp [hq, hnone]

theorem mapGet_isNone_iff {β : Type u} (l : List (String × β)) (k : String) :
    (mapGet l k).isNone = true ↔ k ∉ l.map Prod.fst := by
  induction l with
  | nil => simp [mapGet]
  | cons q qs ih =>
    rcases q with ⟨kb, vb⟩
    by_cases hq : kb = k
    · simp [mapGet, hq]
    · simp only [mapGet, if_neg hq, List.map_cons, List.mem_cons, ih]
      constructor
      · rintro hnot (hk | hk)
        · exact hq hk.symm
        · exact hnot hk
      · intro hnot
        exact fun hk => hnot (Or.inr hk)

theorem mapSet_keys_nodup {β : Type u} (l : List (String × β)) (k : String) (v : β)
    (h : (l.map Prod.fst).Nodup) : ((mapSet l k v).map Prod.fst).Nodup := by
  rw [mapSet_keys]
  by_cases hnone : (mapGet l k).isNone
  · rw [if_pos hnone]
    have hk : k ∉ l.map Prod.fst := (mapGet_isNone_iff l k).mp hnone
    simp [List.nodup_append, h, hk]
  · rw [if_neg hnone]
    exact h

theorem runCalls_coalesce {T : Type} (p : String) (D : Nat) (ts : List Nat) (t0 : Nat)
    (r : DebounceRun T) (hD : r.sc.debounceMs = D)
    (htimer : mapGet r.sc.debounceTimers p = some (t0 + D))
    (hchain : List.Chain (fun a b => a ≤ b ∧ b < a + D) t0 ts) :
    DebounceRun.runCalls p r ts =
      { sc :=
          { r.sc with
            debounceTimers := mapSet r.sc.debounceTimers p ((ts.getLast?.getD t0) + D) },
        fired := r.fired } := by
  induction ts generalizing t0 r with
  | nil =>
    simp only [DebounceRun.runCalls, List.getLast?_nil, Option.getD_none]
    rw [mapSet_mapGet_eq _ _ _ htimer]
  | cons t1 rest ih =>
    rcases hchain with _ | ⟨⟨hle, hlt⟩, hchain2⟩
    have hnofire : ¬ (t0 + D ≤ t1) := by omega
    have hadv : r.advanceTo p t1 = r := by
      simp [DebounceRun.advanceTo, htimer, hnofire]
    simp only [DebounceRun.runCalls, hadv]
    have hrec := ih t1
      { r with sc := r.sc.invalidateDebounced p t1 }
      (by simpa [SkeletonCache.invalidateDebounced] using hD)
      (by simpa [SkeletonCache.invalidateDebounced, hD] using
        mapGet_mapSet_self r.sc.debounceTimers p (t1 + D))
      hchain2
    rw [hrec]
    cases rest with
    | nil =>
      simp [SkeletonCache.invalidateDebounced, hD, mapSet_mapSet]
    | cons t2 rest2 =>
      obtain ⟨x, hx⟩ : ∃ x, (t2 :: rest2).getLast? = some x := by
        cases hq : (t2 :: rest2).getLast? with
        | some y => exact ⟨y, rfl⟩
        | none =>
          rw [List.getLast?_eq_none_iff] at hq
          exact absurd hq (by simp)
      simp [SkeletonCache.invalidateDebounced, hD, mapSet_mapSet, List.getLast?_cons_cons, hx]

/-- C5: a burst of one or more debounced invalidation calls for one path,
each arriving within less than the debounce window after the previous one,
starting with no pending timer for the path, produces exactly one
invalidation effect (memory-cache removal plus completion callback), fired
one debounce window after the last call of the burst rather than the first;
afterwards no timer is pending for the path, and re-arming preserves
uniqueness of the per-path timer, so at most one invalidation timer is ever
pending per path. -/
theorem debounce_coalescing {T : Type} (sc : SkeletonCache T) (p : String)
    (t0 : Nat) (ts : List Nat)
    (hno : mapGet sc.debounceTimers p = none)
    (hchain : List.Chain (fun a b => a ≤ b ∧ b < a + sc.debounceMs) t0 ts) :
    ((DebounceRun.runCalls p ⟨sc, []⟩ (t0 :: ts)).finish p).fired =
      [(ts.getLast?.getD t0) + sc.debounceMs] ∧
    mapGet ((DebounceRun.runCalls p ⟨sc, []⟩ (t0 :: ts)).finish p).sc.memoryCache.cache
      p = none ∧
    mapGet ((DebounceRun.runCalls p ⟨sc, []⟩ (t0 :: ts)).finish p).sc.debounceTimers
      p = none ∧
    (∀ (sc2 : SkeletonCache T) (q : String) (now : Nat),
      (sc2.debounceTimers.map Prod.fst).Nodup →
        ((sc2.invalidateDebounced q now).debounceTimers.map Prod.fst).Nodup) := by
  have hstep1 : DebounceRun.runCalls p (⟨sc, []⟩ : DebounceRun T) (t0 :: ts) =
      DebounceRun.runCalls p ⟨sc.invalidateDebounced p t0, []⟩ ts := by
    simp [DebounceRun.runCalls, DebounceRun.advanceTo, hno]
  have hrun := runCalls_coalesce p sc.debounceMs ts t0
    (⟨sc.invalidateDebounced p t0, []⟩ : DebounceRun T) rfl
    (by simpa [SkeletonCache.invalidateDebounced] using
      mapGet_mapSet_self sc.debounceTimers p (t0 + sc.debounceMs))
    hchain
  refine ⟨?_, ?_, ?_, fun sc2 q now hnodup => by
    simpa [SkeletonCache.invalidateDebounced] using
      mapSet_keys_nodup sc2.debounceTimers q (now + sc2.debounceMs) hnodup⟩ <;>
  · rw [hstep1, hrun]
    simp [DebounceRun.finish, SkeletonCache.invalidateDebounced, mapSet_mapSet,
      mapGet_mapSet_self, SkeletonCache.fireInvalidation, LRUCache.delete,
      mapGet_mapDelete_self]

/-- Witness for C5: three rapid calls for one path (gaps of 200 under a
500 window) yield exactly one firing at 1400 + 500 = 1900 and remove the
cached entry. -/
theorem debounce_coalescing_witness :
    ((DebounceRun.runCalls "/w/a.ts"
        (⟨⟨⟨[("/w/a.ts", ⟨1, "h", 0⟩)], 5000⟩, [], 500⟩, []⟩ : DebounceRun Nat)
        [1000, 1200, 1400]).finish "/w/a.ts").fired = [1900] ∧
    mapGet ((DebounceRun.runCalls "/w/a.ts"
        (⟨⟨⟨[("/w/a.ts", ⟨1, "h", 0⟩)], 5000⟩, [], 500⟩, []⟩ : DebounceRun Nat)
        [1000, 1200, 1400]).finish "/w/a.ts").sc.memoryCache.cache "/w/a.ts" = none := by
  have h := debounce_coalescing
    (⟨⟨[("/w/a.ts", ⟨1, "h", 0⟩)], 5000⟩, [], 500⟩ : SkeletonCache Nat)
    "/w/a.ts" 1000 [1200, 1400] rfl
    (List.Chain.cons ⟨by decide, by decide⟩
      (List.Chain.cons ⟨by decide, by decide⟩ List.Chain.nil))
  exact ⟨h.1, h.2.1⟩

theorem contains_iff_mem {α : Type u} [BEq α] [LawfulBEq α] (l : List α) (a : α) :
    l.contains a = true ↔ a ∈ l := by
  rw [List.contains_iff_exists_mem_beq]
  constructor
  · rintro ⟨b, hb, hba⟩
    exact (eq_of_beq hba) ▸ hb
  · intro h
    exact ⟨a, h, by simp⟩

theorem mapSet_length {β : Type u} (l : List (String × β)) (k : String) (v : β) :
    (mapSet l k v).length =
      if (mapGet l k).isNone then l.length + 1 else l.length := by
  have h := congrArg List.length (mapSet_keys l k v)
  rw [List.length_map] at h
  rw [h]
  by_cases hnone : (mapGet l k).isNone <;> simp [hnone]

theorem evictOldest_perm_drop {T : Type} (c : LRUCache T)
    (hkeys : (c.cache.map Prod.fst).Nodup) :
    (c.evictOldest).cache.Perm
      ((c.cache.mergeSort (fun a b => decide (a.2.accessedAt ≤ b.2.accessedAt))).drop
        (max 1 (c.maxSize / 10))) := by
  set n := max 1 (c.maxSize / 10) with hn
  set sorted := c.cache.mergeSort (fun a b => decide (a.2.accessedAt ≤ b.2.accessedAt))
    with hsorted
  set victims := (sorted.take n).map Prod.fst with hvict
  have hperm : c.cache.Perm sorted := (List.mergeSort_perm c.cache _).symm
  have hkeys2 : (sorted.map Prod.fst).Nodup := (hperm.map Prod.fst).nodup_iff.mp hkeys
  have hkeysplit : sorted.map Prod.fst =
      (sorted.take n).map Prod.fst ++ (sorted.drop n).map Prod.fst := by
    rw [← List.map_append, List.take_append_drop]
  have hdisj : ∀ a, a ∈ (sorted.take n).map Prod.fst →
      a ∉ (sorted.drop n).map Prod.fst := by
    rw [hkeysplit, List.nodup_append] at hkeys2
    exact fun a ha hb => hkeys2.2.2 ha hb
  have htake : (sorted.take n).filter (fun p => ! victims.contains p.1) = [] := by
    rw [List.filter_eq_nil_iff]
    intro p hp
    have hin : p.1 ∈ victims := hvict ▸ List.mem_map_of_mem Prod.fst hp
    simp [hin]
  have hdrop : (sorted.drop n).filter (fun p => ! victims.contains p.1) = sorted.drop n := by
    rw [List.filter_eq_self]
    intro p hp
    have hnotin : p.1 ∉ victims := by
      intro hcontra
      exact hdisj p.1 (hvict ▸ hcontra) (List.mem_map_of_mem Prod.fst hp)
    simp [hnotin]
  have hkey : sorted.filter (fun p => ! victims.contains p.1) = sorted.drop n := by
    conv_lhs => rw [← List.take_append_drop n sorted]
    rw [List.filter_append, htake, hdrop, List.nil_append]
  have hfilter : (c.evictOldest).cache =
      c.cache.filter (fun p => ! victims.contains p.1) := rfl
  rw [hfilter, ← hkey]
  exact hperm.filter _

theorem evictOldest_strict_recency {T : Type} (c : LRUCache T)
    (hkeys : (c.cache.map Prod.fst).Nodup)
    (htimes : (c.cache.map (fun p => p.2.accessedAt)).Nodup) :
    ∀ p ∈ c.cache, p ∉ (c.evictOldest).cache →
      ∀ q ∈ (c.evictOldest).cache, p.2.accessedAt < q.2.accessedAt := by
  set n := max 1 (c.maxSize / 10) with hn
  set sorted := c.cache.mergeSort (fun a b => decide (a.2.accessedAt ≤ b.2.accessedAt))
    with hsorted
  have hperm : c.cache.Perm sorted := (List.mergeSort_perm c.cache _).symm
  have hpermdrop := evictOldest_perm_drop c hkeys
  have hpair := @List.sorted_mergeSort (String × CacheEntry T)
    (fun a b => decide (a.2.accessedAt ≤ b.2.accessedAt))
    (fun a b cc hab hbc => by
      simp only [decide_eq_true_eq] at hab hbc ⊢
      omega)
    (fun a b => by
      simp only [Bool.or_eq_true, decide_eq_true_eq]
      omega)
    c.cache
  intro p hp hpnot q hq
  have hqcache : q ∈ c.cache := (List.mem_filter.mp (show q ∈ c.cache.filter _ from hq)).1
  have hq2 : q ∈ sorted.drop n := hpermdrop.mem_iff.mp hq
  have hp2 : p ∈ sorted := hperm.mem_iff.mp hp
  have hpnot2 : p ∉ sorted.drop n := fun hcontra => hpnot (hpermdrop.mem_iff.mpr hcontra)
  have hptake : p ∈ sorted.take n := by
    have hsplitmem := hp2
    rw [← List.take_append_drop n sorted] at hsplitmem
    rcases List.mem_append.mp hsplitmem with h | h
    · exact h
    · exact absurd h hpnot2
  rw [show sorted = c.cache.mergeSort
      (fun a b => decide (a.2.accessedAt ≤ b.2.accessedAt)) from hsorted] at hptake hq2
  rw [← List.take_append_drop n (c.cache.mergeSort
      (fun a b => decide (a.2.accessedAt ≤ b.2.accessedAt))), List.pairwise_append] at hpair
  have hle : p.2.accessedAt ≤ q.2.accessedAt := by
    have := hpair.2.2 p hptake q hq2
    simpa using this
  have hne : p ≠ q := fun heq => hpnot (heq ▸ hq)
  have htne : p.2.accessedAt ≠ q.2.accessedAt := fun heq =>
    hne (List.inj_on_of_nodup_map htimes hp hqcache heq)
  omega

/-- C4 counterexample: a Memory Cache constructed with capacity K = 0
exceeds its capacity on the first insert — eviction removes
max(1, ⌊0.1·0⌋) = 1 entries from an empty map (a no-op), and the insert
then leaves 1 > 0 entries, so the cache does not "never hold more than K
entries" as claimed for every capacity. -/
theorem lru_capacity_zero_counterexample :
    (LRUCache.set (⟨[], 0⟩ : LRUCache Nat) "a" 7 "h" 5).cache.length = 1 ∧
    ¬ ((LRUCache.set (⟨[], 0⟩ : LRUCache Nat) "a" 7 "h" 5).cache.length ≤
        (⟨[], 0⟩ : LRUCache Nat).maxSize) := by
  constructor
  · rfl
  · decide

/-- C4 (amended): for every Memory Cache of capacity K ≥ 1 whose entry map
is well-formed (unique keys) and within capacity, `set` keeps the entry
count at most K and keeps keys unique; when invoked at capacity it first
evicts a batch of exactly max(1, ⌊0.1·K⌋) entries, and (when recency
timestamps are pairwise distinct, the strict-recency reading of the claim)
the evicted entries are exactly the least-recently-touched ones: every
evicted entry is strictly older than every surviving entry. -/
theorem lru_eviction_under_pressure {T : Type} (c : LRUCache T) (key : String) (v : T)
    (hsh : String) (now : Nat)
    (hK : 1 ≤ c.maxSize)
    (hkeys : (c.cache.map Prod.fst).Nodup)
    (hsize : c.cache.length ≤ c.maxSize) :
    (c.set key v hsh now).cache.length ≤ c.maxSize ∧
    ((c.set key v hsh now).cache.map Prod.fst).Nodup ∧
    (c.maxSize ≤ c.cache.length →
      (c.evictOldest).cache.length = c.cache.length - max 1 (c.maxSize / 10)) ∧
    ((c.cache.map (fun p => p.2.accessedAt)).Nodup →
      ∀ p ∈ c.cache, p ∉ (c.evictOldest).cache →
        ∀ q ∈ (c.evictOldest).cache, p.2.accessedAt < q.2.accessedAt) := by
  have hn1 : 1 ≤ max 1 (c.maxSize / 10) := le_max_left 1 _
  have hnK : max 1 (c.maxSize / 10) ≤ c.maxSize :=
    max_le hK (Nat.div_le_self c.maxSize 10)
  have hlenevict : (c.evictOldest).cache.length =
      c.cache.length - max 1 (c.maxSize / 10) := by
    rw [(evictOldest_perm_drop c hkeys).length_eq, List.length_drop,
      List.length_mergeSort]
  have hsub : (c.evictOldest).cache.Sublist c.cache := List.filter_sublist _
  have hkeysevict : ((c.evictOldest).cache.map Prod.fst).Nodup :=
    List.Nodup.sublist (hsub.map Prod.fst) hkeys
  refine ⟨?_, ?_, fun _ => hlenevict, fun htimes => evictOldest_strict_recency c hkeys htimes⟩
  · by_cases hcap : c.maxSize ≤ c.cache.length
    · have hlen : c.cache.length = c.maxSize := le_antisymm hsize hcap
      simp only [LRUCache.set, if_pos hcap]
      rw [mapSet_length]
      by_cases hnone : (mapGet (c.evictOldest).cache key).isNone = true
      · rw [if_pos hnone, hlenevict, hlen]
        omega
      · rw [if_neg hnone, hlenevict, hlen]
        omega
    · simp only [LRUCache.set, if_neg hcap]
      rw [mapSet_length]
      have hlt : c.cache.length < c.maxSize := Nat.lt_of_not_le hcap
      by_cases hnone : (mapGet c.cache key).isNone = true
      · rw [if_pos hnone]
        omega
      · rw [if_neg hnone]
        omega
  · by_cases hcap : c.maxSize ≤ c.cache.length
    · simp only [LRUCache.set, if_pos hcap]
      exact mapSet_keys_nodup _ key _ hkeysevict
    · simp only [LRUCache.set, if_neg hcap]
      exact mapSet_keys_nodup _ key _ hkeys

/-- Witness for the amended C4: a capacity-2 cache at capacity evicts
exactly one (the oldest) entry on insert and stays within capacity. -/
theorem lru_eviction_under_pressure_witness :
    (LRUCache.set (⟨[("a", ⟨1, "h", 5⟩), ("b", ⟨2, "h", 9⟩)], 2⟩ : LRUCache Nat)
      "c" 3 "h" 12).cache.length ≤ 2 ∧
    (LRUCache.evictOldest
      (⟨[("a", ⟨1, "h", 5⟩), ("b", ⟨2, "h", 9⟩)], 2⟩ : LRUCache Nat)).cache.length = 1 := by
  have h := lru_eviction_under_pressure
    (⟨[("a", ⟨1, "h", 5⟩), ("b", ⟨2, "h", 9⟩)], 2⟩ : LRUCache Nat)
    "c" 3 "h" 12 (by decide) (by decide) (by decide)
  exact ⟨h.1, h.2.2.1 (by decide)⟩

theorem mem_ballStep {g : List ImportEdgeRecord} {s : List String} {v : String} :
    v ∈ ballStep g s ↔ v ∈ s ∨ ∃ u ∈ s, v ∈ nbrs g u := by
  simp [ballStep]

theorem self_mem_ball (g : List ImportEdgeRecord) (start : String) (n : Nat) :
    start ∈ ball g start n := by
  induction n with
  | zero => simp [ball]
  | succ n ih =>
    show start ∈ ballStep g (ball g start n)
    exact mem_ballStep.mpr (Or.inl ih)

theorem ball_mono (g : List ImportEdgeRecord) (start : String) {m n : Nat} (h : m ≤ n) :
    ∀ x ∈ ball g start m, x ∈ ball g start n := by
  induction n with
  | zero =>
    intro x hx
    rw [Nat.le_zero.mp h] at hx
    exact hx
  | succ n ih =>
    intro x hx
    rcases Nat.lt_or_ge m (n + 1) with hlt | hge
    · exact mem_ballStep.mpr (Or.inl (ih (Nat.lt_succ_iff.mp hlt) x hx))
    · rw [le_antisymm h hge] at hx
      exact hx

theorem nbrs_mem_ball_succ {g : List ImportEdgeRecord} {start u v : String} {n : Nat}
    (hu : u ∈ ball g start n) (hv : v ∈ nbrs g u) : v ∈ ball g start (n + 1) :=
  mem_ballStep.mpr (Or.inr ⟨u, hu, hv⟩)

theorem ball_subset_closure (g : List ImportEdgeRecord) (start : String) (V : List String)
    (hstart : start ∈ V)
    (hclosed : ∀ u ∈ V, ∀ v ∈ nbrs g u, v ∈ V) :
    ∀ n, ∀ x ∈ ball g start n, x ∈ V := by
  intro n
  induction n with
  | zero =>
    intro x hx
    simp only [ball, List.mem_singleton] at hx
    exact hx ▸ hstart
  | succ n ih =>
    intro x hx
    rcases mem_ballStep.mp hx with h | ⟨u, hu, hv⟩
    · exact ih x h
    · exact hclosed u (ih u hu) x hv

theorem nbrs_length_le (g : List ImportEdgeRecord) (p : String) :
    (nbrs g p).length ≤ 2 * g.length := by
  rw [nbrs, List.length_append, List.length_map, List.length_map]
  have h1 := List.length_filter_le (fun r => decide (r.source_path = p)) g
  have h2 := List.length_filter_le (fun r => decide (r.target_path = p)) g
  omega

theorem nbrs_eq_nil_of_not_mem_endpoints {g : List ImportEdgeRecord} {p : String}
    (h : p ∉ endpointsList g) : nbrs g p = [] := by
  rw [nbrs]
  have h1 : g.filter (fun r => r.source_path = p) = [] := by
    rw [List.filter_eq_nil_iff]
    intro r hr hcontra
    simp only [decide_eq_true_eq] at hcontra
    exact h (List.mem_flatMap.mpr ⟨r, hr, by simp [hcontra]⟩)
  have h2 : g.filter (fun r => r.target_path = p) = [] := by
    rw [List.filter_eq_nil_iff]
    intro r hr hcontra
    simp only [decide_eq_true_eq] at hcontra
    exact h (List.mem_flatMap.mpr ⟨r, hr, by simp [hcontra]⟩)
  rw [h1, h2]
  rfl

theorem filter_not_contains_cons_of_not_mem {l V : List String} {a : String}
    (h : a ∉ l) :
    l.filter (fun x => ! (a :: V).contains x) = l.filter (fun x => ! V.contains x) := by
  apply List.filter_congr
  intro x hx
  have hxa : ¬ (x == a) = true := by
    simp only [beq_iff_eq]
    intro hcontra
    exact h (hcontra ▸ hx)
  simp only [List.contains_cons, Bool.not_or]
  rw [Bool.eq_false_iff.mpr hxa]
  simp

theorem length_filter_not_contains_cons_lt {l V : List String} {a : String}
    (ha : a ∈ l) (hv : a ∉ V) :
    (l.filter (fun x => ! (a :: V).contains x)).length <
      (l.filter (fun x => ! V.contains x)).length := by
  have hmono : ∀ (l2 : List String),
      (l2.filter (fun x => ! (a :: V).contains x)).length ≤
        (l2.filter (fun x => ! V.contains x)).length := by
    intro l2
    refine List.Sublist.length_le (List.monotone_filter_right l2 ?_)
    intro x hx
    simp only [List.contains_cons, Bool.not_or, Bool.and_eq_true] at hx
    exact hx.2
  induction l with
  | nil => simp at ha
  | cons x xs ih =>
    by_cases hxa : x = a
    · subst hxa
      have h1 : (! (x :: V).contains x) = false := by simp
      have h0 : (! V.contains x) = true := by
        simp only [Bool.not_eq_true']
        rcases hcv : V.contains x with _ | _
        · rfl
        · exact absurd ((contains_iff_mem V x).mp hcv) hv
      rw [List.filter_cons, List.filter_cons, h1, h0, if_neg (by simp), if_pos rfl]
      have := hmono xs
      simp only [List.length_cons]
      omega
    · have ha2 : a ∈ xs := by
        rcases List.mem_cons.mp ha with h | h
        · exact absurd h.symm hxa
        · exact h
      have hih := ih ha2
      have hpred : (! (a :: V).contains x) = (! V.contains x) := by
        simp only [List.contains_cons, Bool.not_or]
        rw [Bool.eq_false_iff.mpr (show ¬ (x == a) = true by
          simp only [beq_iff_eq]; exact hxa)]
        simp
      rw [List.filter_cons, List.filter_cons, hpred]
      by_cases hkeep : (! V.contains x) = true
      · rw [if_pos hkeep, if_pos hkeep]
        simpa using Nat.succ_lt_succ hih
      · rw [if_neg hkeep, if_neg hkeep]
        exact hih

theorem bfsInv_init (g : List ImportEdgeRecord) (start : String) (d : Nat) :
    BfsInv g start d 0 [(start, 0)] [] where
  ksucc := Nat.zero_le _
  split := ⟨[(start, 0)], [], rfl, by simp, by simp⟩
  qtop := fun _ pr hpr => by
    rw [List.mem_singleton] at hpr
    rw [hpr]
  sound_q := fun pr hpr => by
    rw [List.mem_singleton] at hpr
    rw [hpr]
    simp [ball]
  sound_V := by simp
  nodupV := List.nodup_nil
  prev := fun h => absurd h (by omega)
  cover := fun _ v hv => by
    simp only [ball, List.mem_singleton] at hv
    exact Or.inr ⟨(start, 0), by simp, hv.symm, rfl⟩
  expanded := by simp

theorem bfsInv_terminal {g : List ImportEdgeRecord} {start : String} {d k : Nat}
    {V : List String} (inv : BfsInv g start d k [] V) :
    (∀ v ∈ V, v ∈ ball g start d) ∧ (∀ v ∈ ball g start d, v ∈ V) := by
  refine ⟨inv.sound_V, ?_⟩
  rcases Nat.lt_or_ge k (d + 1) with hk | hk
  · have hkd : k ≤ d := Nat.lt_succ_iff.mp hk
    have hcov : ∀ v ∈ ball g start k, v ∈ V := by
      intro v hv
      rcases inv.cover hkd v hv with h | ⟨pr, hpr, _⟩
      · exact h
      · simp at hpr
    have hstart : start ∈ V := hcov start (self_mem_ball g start k)
    have hclosed : ∀ u ∈ V, ∀ v ∈ nbrs g u, v ∈ V := by
      intro u hu v hv
      rcases inv.expanded u hu v hv with h | ⟨pr, hpr, _⟩ | ⟨hkk, _⟩
      · exact h
      · simp at hpr
      · omega
    exact fun v hv => ball_subset_closure g start V hstart hclosed d v hv
  · have hk2 : k = d + 1 := le_antisymm inv.ksucc hk
    intro v hv
    have hp := inv.prev (by omega)
    rw [hk2] at hp
    exact hp v hv

theorem bfsInv_align {g : List ImportEdgeRecord} {start : String} {d k : Nat}
    {path : String} {dep : Nat} {rest : List (String × Nat)} {V : List String}
    (inv : BfsInv g start d k ((path, dep) :: rest) V) :
    ∃ k2, BfsInv g start d k2 ((path, dep) :: rest) V ∧ dep = k2 := by
  obtain ⟨q1, q2, hq, hq1, hq2⟩ := inv.split
  cases q1 with
  | cons h1 t1 =>
    rw [List.cons_append] at hq
    injection hq with hhead htail
    refine ⟨k, inv, ?_⟩
    have := hq1 h1 (List.mem_cons_self _ _)
    rw [← hhead] at this
    exact this
  | nil =>
    rw [List.nil_append] at hq
    have hall : ∀ pr ∈ (path, dep) :: rest, pr.2 = k + 1 := by
      rw [hq]
      exact hq2
    have hkd : k ≤ d := by
      by_contra hcon
      have hk2 : k = d + 1 := le_antisymm inv.ksucc (by omega)
      have h1 := inv.qtop hk2 (path, dep) (List.mem_cons_self _ _)
      have h2 := hall (path, dep) (List.mem_cons_self _ _)
      simp only at h1 h2
      omega
    have hprev : ∀ v ∈ ball g start k, v ∈ V := by
      intro v hv
      rcases inv.cover hkd v hv with h | ⟨pr, hpr, _, hpr2⟩
      · exact h
      · have := hall pr hpr
        omega
    refine ⟨k + 1, ?_, hall (path, dep) (List.mem_cons_self _ _)⟩
    exact {
      ksucc := by omega
      split := ⟨(path, dep) :: rest, [], by simp, hall, by simp⟩
      qtop := fun _ => hall
      sound_q := inv.sound_q
      sound_V := inv.sound_V
      nodupV := inv.nodupV
      prev := fun _ => hprev
      cover := fun _ v hv => by
        rcases mem_ballStep.mp hv with h | ⟨u, hu, hnb⟩
        · exact Or.inl (hprev v h)
        · rcases inv.expanded u (hprev u hu) v hnb with h | ⟨pr, hpr, hpr1⟩ | ⟨hkk, _⟩
          · exact Or.inl h
          · exact Or.inr ⟨pr, hpr, hpr1, hall pr hpr⟩
          · omega
      expanded := fun u hu v hv => by
        rcases inv.expanded u hu v hv with h | h | ⟨hkk, _⟩
        · exact Or.inl h
        · exact Or.inr (Or.inl h)
        · omega
    }

theorem bfsInv_skip {g : List ImportEdgeRecord} {start : String} {d k : Nat}
    {path : String} {rest : List (String × Nat)} {V : List String}
    (inv : BfsInv g start d k ((path, k) :: rest) V)
    (hskip : path ∈ V ∨ d < k) :
    BfsInv g start d k rest V := by
  obtain ⟨q1, q2, hq, hq1, hq2⟩ := inv.split
  have hsplit2 : ∃ q1b q2b, rest = q1b ++ q2b ∧ (∀ pr ∈ q1b, pr.2 = k) ∧
      (∀ pr ∈ q2b, pr.2 = k + 1) := by
    cases q1 with
    | nil =>
      rw [List.nil_append] at hq
      have := hq2 (path, k) (hq ▸ (List.mem_cons_self _ _))
      simp only at this
      omega
    | cons h1 t1 =>
      rw [List.cons_append] at hq
      injection hq with hhead htail
      exact ⟨t1, q2, htail, fun pr hpr => hq1 pr (List.mem_cons_of_mem h1 hpr), hq2⟩
  have hmemq : ∀ pr, pr ∈ rest → pr ∈ (path, k) :: rest :=
    fun pr hpr => List.mem_cons_of_mem _ hpr
  exact {
    ksucc := inv.ksucc
    split := hsplit2
    qtop := fun hk pr hpr => inv.qtop hk pr (hmemq pr hpr)
    sound_q := fun pr hpr => inv.sound_q pr (hmemq pr hpr)
    sound_V := inv.sound_V
    nodupV := inv.nodupV
    prev := inv.prev
    cover := fun hkd v hv => by
      rcases inv.cover hkd v hv with h | ⟨pr, hpr, hpr1, hpr2⟩
      · exact Or.inl h
      · rcases List.mem_cons.mp hpr with hh | hh
        · rcases hskip with hs | hs
          · rw [hh] at hpr1
            exact Or.inl (hpr1 ▸ hs)
          · omega
        · exact Or.inr ⟨pr, hh, hpr1, hpr2⟩
    expanded := fun u hu v hv => by
      rcases inv.expanded u hu v hv with h | ⟨pr, hpr, hpr1⟩ | h
      · exact Or.inl h
      · rcases List.mem_cons.mp hpr with hh | hh
        · by_cases hpv : path ∈ V
          · rw [hh] at hpr1
            exact Or.inl (hpr1 ▸ hpv)
          · have hdk : d < k := by
              rcases hskip with hs | hs
              · exact absurd hs hpv
              · exact hs
            have hk2 : k = d + 1 := by
              have := inv.ksucc
              omega
            refine Or.inr (Or.inr ⟨hk2, ?_⟩)
            intro hball
            apply hpv
            have hp := inv.prev (by omega)
            rw [hk2] at hp
            rw [hh] at hpr1
            simp only at hpr1
            rw [hpr1]
            exact hp v hball
        · exact Or.inr (Or.inl ⟨pr, hh, hpr1⟩)
      · exact Or.inr (Or.inr h)
  }

theorem bfsInv_expand {g : List ImportEdgeRecord} {start : String} {d k : Nat}
    {path : String} {rest : List (String × Nat)} {V : List String}
    (inv : BfsInv g start d k ((path, k) :: rest) V)
    (hnotv : path ∉ V) (hkd : k ≤ d) :
    BfsInv g start d k
      (rest ++ ((nbrs g path).filter (fun t => ¬ t ∈ path :: V)).map (fun t => (t, k + 1)))
      (path :: V) := by
  obtain ⟨q1, q2, hq, hq1, hq2⟩ := inv.split
  have hpath_ball : path ∈ ball g start k := by
    have := inv.sound_q (path, k) (List.mem_cons_self _ _)
    simpa using this
  have hpushmem : ∀ pr ∈ ((nbrs g path).filter
      (fun t => ¬ t ∈ path :: V)).map (fun t => (t, k + 1)),
      pr.2 = k + 1 ∧ pr.1 ∈ nbrs g path := by
    intro pr hpr
    rcases List.mem_map.mp hpr with ⟨t, ht, hteq⟩
    rw [← hteq]
    exact ⟨rfl, (List.mem_filter.mp ht).1⟩
  have hsplit2 : ∃ q1b q2b,
      rest ++ ((nbrs g path).filter (fun t => ¬ t ∈ path :: V)).map
        (fun t => (t, k + 1)) = q1b ++ q2b ∧
      (∀ pr ∈ q1b, pr.2 = k) ∧ (∀ pr ∈ q2b, pr.2 = k + 1) := by
    cases q1 with
    | nil =>
      rw [List.nil_append] at hq
      have := hq2 (path, k) (hq ▸ (List.mem_cons_self _ _))
      simp only at this
      omega
    | cons h1 t1 =>
      rw [List.cons_append] at hq
      injection hq with hhead htail
      refine ⟨t1, q2 ++ ((nbrs g path).filter (fun t => ¬ t ∈ path :: V)).map
        (fun t => (t, k + 1)), ?_, fun pr hpr => hq1 pr (List.mem_cons_of_mem h1 hpr), ?_⟩
      · rw [htail, List.append_assoc]
      · intro pr hpr
        rcases List.mem_append.mp hpr with h | h
        · exact hq2 pr h
        · exact (hpushmem pr h).1
  have hmemq : ∀ pr, pr ∈ rest → pr ∈ (path, k) :: rest :=
    fun pr hpr => List.mem_cons_of_mem _ hpr
  exact {
    ksucc := inv.ksucc
    split := hsplit2
    qtop := fun hk => by omega
    sound_q := fun pr hpr => by
      rcases List.mem_append.mp hpr with h | h
      · exact inv.sound_q pr (hmemq pr h)
      · obtain ⟨hlab, hnb⟩ := hpushmem pr h
        rw [hlab]
        exact nbrs_mem_ball_succ hpath_ball hnb
    sound_V := fun v hv => by
      rcases List.mem_cons.mp hv with h | h
      · exact h ▸ ball_mono g start hkd path hpath_ball
      · exact inv.sound_V v h
    nodupV := List.nodup_cons.mpr ⟨hnotv, inv.nodupV⟩
    prev := fun hk v hv => List.mem_cons_of_mem _ (inv.prev hk v hv)
    cover := fun hkd2 v hv => by
      rcases inv.cover hkd2 v hv with h | ⟨pr, hpr, hpr1, hpr2⟩
      · exact Or.inl (List.mem_cons_of_mem _ h)
      · rcases List.mem_cons.mp hpr with hh | hh
        · rw [hh] at hpr1
          simp only at hpr1
          rw [← hpr1]
          exact Or.inl (List.mem_cons_self _ _)
        · exact Or.inr ⟨pr, List.mem_append_left _ hh, hpr1, hpr2⟩
    expanded := fun u hu v hv => by
      rcases List.mem_cons.mp hu with hh | hh
      · subst hh
        by_cases hvv : v ∈ u :: V
        · exact Or.inl hvv
        · refine Or.inr (Or.inl ⟨(v, k + 1), ?_, rfl⟩)
          refine List.mem_append_right _ ?_
          refine List.mem_map.mpr ⟨v, ?_, rfl⟩
          rw [List.mem_filter]
          exact ⟨hv, by simpa using hvv⟩
      · rcases inv.expanded u hh v hv with h | ⟨pr, hpr, hpr1⟩ | ⟨hkk, _⟩
        · exact Or.inl (List.mem_cons_of_mem _ h)
        · rcases List.mem_cons.mp hpr with h2 | h2
          · rw [h2] at hpr1
            simp only at hpr1
            rw [← hpr1]
            exact Or.inl (List.mem_cons_self _ _)
          · exact Or.inr (Or.inl ⟨pr, List.mem_append_left _ h2, hpr1⟩)
        · omega
  }

theorem bfsMeasure_skip (g : List ImportEdgeRecord) (path : String) (dep : Nat)
    (rest : List (String × Nat)) (V : List String) :
    bfsMeasure g rest V < bfsMeasure g ((path, dep) :: rest) V := by
  simp only [bfsMeasure, List.length_cons]
  omega

theorem bfsMeasure_expand (g : List ImportEdgeRecord) (path : String) (k : Nat)
    (rest : List (String × Nat)) (V : List String) (hnotv : path ∉ V) :
    bfsMeasure g (rest ++ ((nbrs g path).filter (fun t => ¬ t ∈ path :: V)).map
      (fun t => (t, k + 1))) (path :: V) < bfsMeasure g ((path, k) :: rest) V := by
  by_cases hmem : path ∈ endpointsList g
  · have hfresh : ((endpointsList g).filter (fun x => ! (path :: V).contains x)).length + 1 ≤
        ((endpointsList g).filter (fun x => ! V.contains x)).length :=
      Nat.succ_le_of_lt (length_filter_not_contains_cons_lt hmem hnotv)
    have hpush : (((nbrs g path).filter (fun t => ¬ t ∈ path :: V)).map
        (fun t => (t, k + 1))).length ≤ 2 * g.length := by
      rw [List.length_map]
      exact le_trans (List.length_filter_le _ _) (nbrs_length_le g path)
    have hmul := Nat.mul_le_mul_right (2 * g.length + 1) hfresh
    rw [Nat.succ_mul] at hmul
    simp only [bfsMeasure, List.length_append, List.length_cons]
    omega
  · have hnil : nbrs g path = [] := nbrs_eq_nil_of_not_mem_endpoints hmem
    have hfilter : (endpointsList g).filter (fun x => ! (path :: V).contains x) =
        (endpointsList g).filter (fun x => ! V.contains x) :=
      filter_not_contains_cons_of_not_mem hmem
    simp only [bfsMeasure, hnil, List.filter_nil, List.map_nil, List.append_nil,
      hfilter, List.length_cons]
    omega

theorem bfsAux_spec (g : List ImportEdgeRecord) (start : String) (d : Nat) :
    ∀ (fuel : Nat) (q : List (String × Nat)) (V : List String) (k : Nat),
      BfsInv g start d k q V → bfsMeasure g q V ≤ fuel →
      ((∀ v ∈ bfsAux g d fuel q V, v ∈ ball g start d) ∧
        (∀ v ∈ ball g start d, v ∈ bfsAux g d fuel q V) ∧
        (bfsAux g d fuel q V).Nodup) := by
  intro fuel
  induction fuel with
  | zero =>
    intro q V k inv hm
    have hq : q = [] := by
      have hlen : q.length = 0 := by
        simp only [bfsMeasure] at hm
        omega
      exact List.length_eq_zero.mp hlen
    subst hq
    have ht := bfsInv_terminal inv
    exact ⟨ht.1, ht.2, inv.nodupV⟩
  | succ fuel ih =>
    intro q V k inv hm
    match q with
    | [] =>
      have ht := bfsInv_terminal inv
      exact ⟨ht.1, ht.2, inv.nodupV⟩
    | (path, dep) :: rest =>
      obtain ⟨k2, inv2, hdep⟩ := bfsInv_align inv
      subst hdep
      by_cases hskip : path ∈ V ∨ d < dep
      · have hstep : bfsAux g d (fuel + 1) ((path, dep) :: rest) V =
            bfsAux g d fuel rest V := by
          rw [bfsAux, if_pos hskip]
        rw [hstep]
        refine ih rest V dep (bfsInv_skip inv2 hskip) ?_
        have := bfsMeasure_skip g path dep rest V
        omega
      · push_neg at hskip
        have hstep : bfsAux g d (fuel + 1) ((path, dep) :: rest) V =
            bfsAux g d fuel
              (rest ++ ((nbrs g path).filter (fun t => ¬ t ∈ path :: V)).map
                (fun t => (t, dep + 1))) (path :: V) := by
          rw [bfsAux, if_neg (by push_neg; exact hskip)]
        rw [hstep]
        refine ih _ _ dep (bfsInv_expand inv2 hskip.1 hskip.2) ?_
        have := bfsMeasure_expand g path dep rest V hskip.1
        omega

theorem getRelatedFilesList_mem (g : List ImportEdgeRecord) (start : String) (d : Nat) :
    ∀ x, x ∈ getRelatedFilesList g start d ↔ x ∈ ball g start d ∧ x ≠ start := by
  intro x
  have hm : bfsMeasure g [(start, 0)] [] ≤ bfsFuel g := by
    have hle := List.length_filter_le (fun x => ! ([] : List String).contains x)
      (endpointsList g)
    have hmul := Nat.mul_le_mul_right (2 * g.length + 1) hle
    simp only [bfsMeasure, bfsFuel, List.length_singleton]
    omega
  obtain ⟨hsound, hcomp, hnodup⟩ :=
    bfsAux_spec g start d (bfsFuel g) [(start, 0)] [] 0 (bfsInv_init g start d) hm
  rw [getRelatedFilesList, List.Nodup.mem_erase_iff hnodup]
  constructor
  · rintro ⟨hne, hmem⟩
    exact ⟨hsound x hmem, hne⟩
  · rintro ⟨hball, hne⟩
    exact ⟨hne, hcomp x hball⟩

/-- C6: `getRelatedFiles` returns exactly the set of file identities
reachable from the resolved origin within `depth` hops over the stored
edges traversed in both directions (forward along imports and backward
along importers, visited-set deduplicated), excluding the origin itself;
consequently depth 0 yields the empty list, and a stored edge between two
distinct files makes each file a member of the other's depth-1 related
set. -/
theorem getRelatedFiles_reachable (env : Cartographer.Env) (st : Cartographer.State)
    (filePath : String) (depth : Nat) (x : String) :
    (x ∈ Cartographer.getRelatedFiles env st filePath depth ↔
      x ∈ ball st.store.mem.importGraph (env.resolveWs filePath) depth ∧
        x ≠ env.resolveWs filePath) ∧
    Cartographer.getRelatedFiles env st filePath 0 = [] ∧
    (∀ (g : List ImportEdgeRecord) (A B kind : String),
      ({ source_path := A, target_path := B, import_type := kind } :
        ImportEdgeRecord) ∈ g →
      A ≠ B → B ∈ getRelatedFilesList g A 1 ∧ A ∈ getRelatedFilesList g B 1) := by
  refine ⟨getRelatedFilesList_mem _ _ _ x, ?_, ?_⟩
  · rw [List.eq_nil_iff_forall_not_mem]
    intro y hy
    obtain ⟨hball, hne⟩ :=
      (getRelatedFilesList_mem st.store.mem.importGraph (env.resolveWs filePath) 0 y).mp hy
    simp only [ball, List.mem_singleton] at hball
    exact hne hball
  · intro g A B kind hedge hne
    have hBA : B ∈ nbrs g A := by
      rw [nbrs]
      refine List.mem_append_left _ ?_
      refine List.mem_map.mpr ⟨⟨A, B, kind⟩, ?_, rfl⟩
      rw [List.mem_filter]
      exact ⟨hedge, by simp⟩
    have hAB : A ∈ nbrs g B := by
      rw [nbrs]
      refine List.mem_append_right _ ?_
      refine List.mem_map.mpr ⟨⟨A, B, kind⟩, ?_, rfl⟩
      rw [List.mem_filter]
      exact ⟨hedge, by simp⟩
    constructor
    · rw [getRelatedFilesList_mem]
      refine ⟨?_, fun h => hne h.symm⟩
      exact mem_ballStep.mpr (Or.inr ⟨A, by simp [ball], hBA⟩)
    · rw [getRelatedFilesList_mem]
      refine ⟨?_, hne⟩
      exact mem_ballStep.mpr (Or.inr ⟨B, by simp [ball], hAB⟩)

/-- Witness for C6: with one stored static edge from a.ts to b.ts, each file
is in the depth-1 related set of the other, and the depth-0 related set of
a.ts is empty. -/
theorem getRelatedFiles_reachable_witness :
    ("/w/b.ts" ∈ getRelatedFilesList [⟨"/w/a.ts", "/w/b.ts", "static"⟩] "/w/a.ts" 1 ∧
      "/w/a.ts" ∈ getRelatedFilesList [⟨"/w/a.ts", "/w/b.ts", "static"⟩] "/w/b.ts" 1) ∧
    Cartographer.getRelatedFiles
      ⟨⟨fun _ => "", fun _ s => s, fun a b => a ++ "/" ++ b⟩, fun _ => none,
        fun _ => none, fun p => p⟩
      ⟨⟨⟨[], 5000⟩, [], 500⟩,
        ⟨⟨[], [⟨"/w/a.ts", "/w/b.ts", "static"⟩]⟩,
          ⟨[], [⟨"/w/a.ts", "/w/b.ts", "static"⟩]⟩⟩, 0⟩ "/w/a.ts" 0 = [] := by
  constructor
  · exact (getRelatedFiles_reachable
      ⟨⟨fun _ => "", fun _ s => s, fun a b => a ++ "/" ++ b⟩, fun _ => none,
        fun _ => none, fun p => p⟩
      ⟨⟨⟨[], 5000⟩, [], 500⟩,
        ⟨⟨[], [⟨"/w/a.ts", "/w/b.ts", "static"⟩]⟩,
          ⟨[], [⟨"/w/a.ts", "/w/b.ts", "static"⟩]⟩⟩, 0⟩ "/w/a.ts" 0 "/w/b.ts").2.2
      [⟨"/w/a.ts", "/w/b.ts", "static"⟩] "/w/a.ts" "/w/b.ts" "static"
      (List.mem_cons_self _ _) (by decide)
  · exact (getRelatedFiles_reachable
      ⟨⟨fun _ => "", fun _ s => s, fun a b => a ++ "/" ++ b⟩, fun _ => none,
        fun _ => none, fun p => p⟩
      ⟨⟨⟨[], 5000⟩, [], 500⟩,
        ⟨⟨[], [⟨"/w/a.ts", "/w/b.ts", "static"⟩]⟩,
          ⟨[], [⟨"/w/a.ts", "/w/b.ts", "static"⟩]⟩⟩, 0⟩ "/w/a.ts" 0 "/w/b.ts").2.1
